import Mathlib

/-!
Movie Query Client: a shallow embedding of `movieClient.cpp`.

The translation unit is embedded function by function.  A `std::string` is a
list of characters (one `Char` per byte), a `std::vector<T>` is a `List T`,
`std::cout` is the text written so far, and the process-wide `userInput` is
passed explicitly to the functions that read it.

A computation that can throw `std::out_of_range` (`std::string::substr`) or
index a vector outside its bounds returns an `Option`; `none` is "no result".

`Movie.h` is not part of the sources, so the record type, its accessor
`Movie::getCol` and its reader `operator>>` are parameters (`Movie : Type`,
`getCol : Movie → Str → Str`, `extract : Str → Option (Movie × Str)`) of
everything that uses them.
-/

namespace MovieClient

/-- A `std::string`: the sequence of its characters. -/
abbrev Str := List Char

/-! ## Machine integers -/

/-- The constant `std::string::npos`, the largest `size_t` (64 bit). -/
def npos : Nat := 2 ^ 64 - 1

/-- Narrowing of an integer value to a 32-bit `int` (two's complement): `r`
is the residue modulo `2 ^ 32`, read as negative from `2 ^ 31` on. -/
def toInt32 (z : Int) : Int :=
  let r := z % 2 ^ 32
  if r.toNat < 2 ^ 31 then r else r - 2 ^ 32

/-- Conversion of an `int` to `size_t`: reduction modulo `2 ^ 64`. -/
def toSizeT (z : Int) : Nat := (z % 2 ^ 64).toNat

/-- Subtraction `a - b` on `size_t` operands (both below `2 ^ 64`):
it wraps around when `b` exceeds `a`. -/
def subSizeT (a b : Nat) : Nat := if b ≤ a then a - b else 2 ^ 64 - (b - a)

/-! ## `std::string` primitives -/

/-- Scan of `std::string::find`: the lowest position, counted from `i`, at
which `pat` starts. -/
def findFrom (pat : Str) : Str → Nat → Option Nat
  | [], i => if pat = [] then some i else none
  | c :: rest, i =>
    if pat.isPrefixOf (c :: rest) then some i else findFrom pat rest (i + 1)

/-- The call `s.find(pat)`: position of the first occurrence; `none` stands
for the result `npos`. -/
def find (s pat : Str) : Option Nat := findFrom pat s 0

/-- The `size_t` value of a result of `find`. -/
def posValue (r : Option Nat) : Nat := r.getD npos

/-- The call `s.substr(pos, count)`: throws `std::out_of_range` (`none`) when
`pos > s.size()`, else the characters `[pos, pos + min(count, size - pos))`. -/
def substr (s : Str) (pos count : Nat) : Option Str :=
  if s.length < pos then none
  else some ((s.drop pos).take (min count (s.length - pos)))

/-- Whitespace of the classic locale: space, `\t`, `\n`, `\v`, `\f`, `\r`. -/
def isspace (c : Char) : Bool :=
  c == ' ' || c == '\t' || c == '\n' || c == Char.ofNat 11 || c == Char.ofNat 12 ||
    c == '\r'

/-- The call `std::replace(str.begin(), str.end(), a, b)`. -/
def replace (s : Str) (a b : Char) : Str := s.map (fun c => if c = a then b else c)

/-- The call `boost::algorithm::trim_right`. -/
def trimRight (s : Str) : Str := (s.reverse.dropWhile isspace).reverse

/-- The call `boost::algorithm::trim_left`. -/
def trimLeft (s : Str) : Str := s.dropWhile isspace

/-- The call `boost::algorithm::trim`: right trim, then left trim. -/
def trim (s : Str) : Str := trimLeft (trimRight s)

/-! ## `split` -/

/-- The loop `while (is >> word) wordList.push_back(word)`: `word` holds the
characters of the token being read; leading whitespace is skipped and a token
ends at the next whitespace character or at the end of the stream. -/
def extractWords : Str → Str → List Str
  | [], word => if word = [] then [] else [word]
  | c :: rest, word =>
    if isspace c then
      if word = [] then extractWords rest [] else word :: extractWords rest []
    else extractWords rest (word ++ [c])

/-- The function `split`: commas and double quotes become spaces, then the
string is read word by word. -/
def split (str : Str) : List Str :=
  extractWords (replace (replace str ',' ' ') '"' ' ') []

/-! ## `getHostAndPath` and `parseCategories` -/

/-- The function `getHostAndPath`, reading `userInput`; the result vector is
`[host, path]`. -/
def getHostAndPath (userInput : Str) : Option (List Str) :=
  let endPos := toInt32 (posValue (find userInput ".txt".toList))
  let httpStart := toInt32 (posValue (find userInput "http://".toList))
  match substr userInput (toSizeT (toInt32 (httpStart + 7)))
      (toSizeT (toInt32 (toInt32 (endPos - httpStart) - 3))) with
  | none => none
  | some searchString =>
    let hostPathSeperator := toInt32 (posValue (find searchString ['/']))
    match substr searchString 0 (toSizeT hostPathSeperator) with
    | none => none
    | some host =>
      match substr searchString (toSizeT hostPathSeperator) npos with
      | none => none
      | some path => some [host, path]

/-- The function `parseCategories`, reading `userInput`. -/
def parseCategories (userInput : Str) : Option (List Str) :=
  let input := userInput
  let findHostAndPathStart := toInt32 (posValue (find input "\"http".toList))
  let findHostAndPathEnd := toInt32 (posValue (find input ".txt".toList))
  match substr input 0 (toSizeT findHostAndPathStart) with
  | none => none
  | some before =>
    match substr input (toSizeT (toInt32 (findHostAndPathEnd + 4))) npos with
    | none => none
    | some after => some (split (before ++ " ".toList ++ after))

/-! ## Query evaluation -/

section Evaluation

variable {Movie : Type}

/-- The projection loop `for (size_t i = ...; i < bound; i++) output = output +
m.getCol(cols[i]) + (i < cols.size() - 1 ? " " : "")`: `steps` iterations
remain, `i` is the loop counter.  Reading `cols[i]` outside the vector gives
`none`. -/
def projectLoop (getCol : Movie → Str → Str) (m : Movie) (cols : List Str) :
    Nat → Nat → Str → Option Str
  | 0, _, output => some output
  | steps + 1, i, output =>
    match cols[i]? with
    | none => none
    | some col =>
      projectLoop getCol m cols steps (i + 1)
        (output ++ getCol m col ++
          (if i < subSizeT cols.length 1 then " ".toList else []))

/-- The body of the `for (Movie m : movieDB)` loop of `moviesWhere`. -/
def moviesWhereLoop (getCol : Movie → Str → Str) (cols : List Str)
    (desiredTrait desiredTraitName : Str) : List Movie → Option (List Str)
  | [] => some []
  | m :: rest =>
    let traitFound := find (getCol m desiredTraitName) desiredTrait
    if traitFound ≠ none then
      match projectLoop getCol m cols (subSizeT cols.length 4) 0 [] with
      | none => none
      | some output =>
        match moviesWhereLoop getCol cols desiredTrait desiredTraitName rest with
        | none => none
        | some printed => some (trim output :: printed)
    else moviesWhereLoop getCol cols desiredTrait desiredTraitName rest

/-- The function `moviesWhere`: the lines written to `std::cout`, each one
followed there by `std::endl`. -/
def moviesWhere (getCol : Movie → Str → Str) (movieDB : List Movie)
    (cols : List Str) : Option (List Str) :=
  match cols[subSizeT cols.length 1]? with
  | none => none
  | some desiredTrait =>
    match cols[subSizeT cols.length 3]? with
    | none => none
    | some desiredTraitName =>
      moviesWhereLoop getCol cols desiredTrait desiredTraitName movieDB

/-- The function `moviesNoWhere`: the lines written to `std::cout`. -/
def moviesNoWhere (getCol : Movie → Str → Str) :
    List Movie → List Str → Option (List Str)
  | [], _ => some []
  | m :: rest, cols =>
    match projectLoop getCol m cols cols.length 0 [] with
    | none => none
    | some output =>
      match moviesNoWhere getCol rest cols with
      | none => none
      | some printed => some (trim output :: printed)

/-- The function `printMoviesByCol`; `&&` evaluates `cols[cols.size() - 4]`
only when `cols.size() >= 4`. -/
def printMoviesByCol (getCol : Movie → Str → Str) (movieDB : List Movie)
    (cols : List Str) : Option (List Str) :=
  if 4 ≤ cols.length then
    match cols[subSizeT cols.length 4]? with
    | none => none
    | some tok =>
      if tok = "where".toList then moviesWhere getCol movieDB cols
      else moviesNoWhere getCol movieDB cols
  else moviesNoWhere getCol movieDB cols

end Evaluation

/-! ## `std::istream` and `std::getline` -/

/-- The state of a `std::istream`: `some buf` is a stream in good state whose
unread characters are `buf`; `none` is a stream whose `eofbit` or `failbit` is
set, on which every further input operation fails. -/
abbrev IStream := Option Str

/-- The call `std::getline(is, line)`: the new value of `line` when the call
succeeds (`none` when it fails) and the stream afterwards.  Characters are
taken up to the first `\n`, which is removed from the stream and not stored;
without a `\n` the rest of the stream is taken and the stream is at its end,
and the call fails when nothing at all could be taken. -/
def getline : IStream → Option Str × IStream
  | none => (none, none)
  | some buf =>
    match buf.dropWhile (fun c => c != '\n') with
    | _ :: rest => (some (buf.takeWhile (fun c => c != '\n')), some rest)
    | [] => if buf = [] then (none, none) else (some buf, none)

/-! ## The session -/

section Session

variable {Movie : Type}

/-- What one pass through the body of the `while` loop of `main` did: the
text it wrote to `std::cout`, the new value of `shouldQuit`, and the value
assigned to `categoriesToGrab` when the last branch was taken. -/
structure Iteration where
  cout : Str
  shouldQuit : Bool
  categoriesToGrab : Option (List Str)

/-- The body of the `while` loop of `main` after `getline` has stored the
line in `userInput`.  An exception escaping the body gives `none`. -/
def loopBody (getCol : Movie → Str → Str) (movieDB : List Movie)
    (userInput : Str) : Option Iteration :=
  let prompt := "query> ".toList
  if userInput = "exit".toList then some ⟨prompt, true, none⟩
  else if userInput.length < 50 then
    some ⟨prompt ++ "Try again".toList, false, none⟩
  else
    match parseCategories userInput with
    | none => none
    | some categoriesToGrab =>
      match printMoviesByCol getCol movieDB categoriesToGrab with
      | none => none
      | some lines =>
        some ⟨prompt ++ (lines.map (fun l => l ++ ['\n'])).flatten, false,
          some categoriesToGrab⟩

/-- How a run of `main` ends: by an uncaught exception, by `return 0`, or
still inside the loop when the iteration budget of the model is used up.
Each carries the text written to `std::cout`. -/
inductive Outcome where
  | aborted (cout : Str)
  | returned (cout : Str)
  | running (cout : Str)
  deriving DecidableEq

/-- The `while (!shouldQuit)` loop of `main`, for at most `fuel` iterations,
reading the standard input `stdin`.  On a stream that is no longer good the
sentry of `getline` fails and `userInput` keeps its value; otherwise `getline`
erases `userInput` and stores what it could read. -/
def mainLoop (getCol : Movie → Str → Str) (movieDB : List Movie) :
    Nat → IStream → Str → Str → Outcome
  | 0, _, _, cout => Outcome.running cout
  | fuel + 1, stdin, userInput, cout =>
    let userInput :=
      match stdin with
      | none => userInput
      | some _ => (getline stdin).1.getD []
    match loopBody getCol movieDB userInput with
    | none => Outcome.aborted (cout ++ "query> ".toList)
    | some it =>
      if it.shouldQuit then Outcome.returned (cout ++ it.cout)
      else mainLoop getCol movieDB fuel (getline stdin).2 userInput (cout ++ it.cout)

/-- The function `networkHandler`, reading `userInput`.  The connection to
`hostAndPath[0]` on port 8000 and the call of `process` on that stream are
the parameter `fetch`. -/
def networkHandler (fetch : List Str → List Movie) (userInput : Str) :
    Option (List Movie) :=
  match getHostAndPath userInput with
  | none => none
  | some hostAndPath => some (fetch hostAndPath)

/-- The function `main`.  `userInput` is a default-constructed, hence empty,
global string when `networkHandler` runs: the call comes before the loop and
so before the first `getline`. -/
def main (fetch : List Str → List Movie) (getCol : Movie → Str → Str)
    (fuel : Nat) (stdin : IStream) : Outcome :=
  let userInput : Str := []
  match networkHandler fetch userInput with
  | none => Outcome.aborted []
  | some movieDB => mainLoop getCol movieDB fuel stdin userInput []

end Session

/-! ## The query of the specification -/

section Specification

variable {Movie : Type}

/-- The `Query` of the specification: the projected columns and an optional
filter `(columnName, substring)`. -/
structure Query where
  columns : List Str
  filter : Option (Str × Str)

/-- The line of one record as the specification words it: the values of the
columns in order, joined by a single space, then trimmed. -/
def formatLine (getCol : Movie → Str → Str) (columns : List Str) (m : Movie) : Str :=
  trim (" ".toList.intercalate (columns.map (getCol m)))

/-- The evaluator as the specification words it: records whose value at the
filter column does not contain the filter substring are skipped, every other
record gives one formatted line, in dataset order. -/
def evaluate (getCol : Movie → Str → Str) (dataset : List Movie) (q : Query) :
    List Str :=
  (dataset.filter (fun m =>
    match q.filter with
    | none => true
    | some (columnName, substring) => decide (substring <:+: getCol m columnName))).map
    (formatLine getCol q.columns)

end Specification


/-! ## `process` -/

section Process

variable {Movie : Type}

/-- The loop `while (std::getline(is, line) && !line.empty() && line != "\r")`
of `process`, for at most `fuel` iterations; the result is the stream when the
loop is left. -/
def skipHeaders : Nat → IStream → IStream
  | 0, is => is
  | fuel + 1, is =>
    match getline is with
    | (none, is') => is'
    | (some line, is') =>
      if line = [] ∨ line = ['\r'] then is' else skipHeaders fuel is'

/-- The loop `while (is >> placeholder) movieDB.push_back(placeholder)` of
`process`, for at most `fuel` iterations (`none` when they do not suffice).
The parameter `extract` is `operator>>` for `Movie`, declared in the absent
`Movie.h`: on a good stream with unread characters `buf` it either fails or
stores a record and leaves `rest` unread.  On a stream that is not good it is
taken to fail, as every read through the stream does. -/
def decodeLoop (extract : Str → Option (Movie × Str)) :
    Nat → IStream → Option (List Movie)
  | _, none => some []
  | 0, some _ => none
  | fuel + 1, some buf =>
    match extract buf with
    | none => some []
    | some (placeholder, rest) =>
      match decodeLoop extract fuel (some rest) with
      | none => none
      | some movieDB => some (placeholder :: movieDB)

/-- The three `os << ...` statements of `process`: the request text. -/
def requestText (host path : Str) : Str :=
  "GET ".toList ++ path ++ " HTTP/1.1\r\n".toList ++ "Host: ".toList ++ host ++
    "\r\n".toList ++ "Connection: Close\r\n\r\n".toList

/-- The function `process`: the request written to `os` and the records read
from `is`.  Each loop gets one iteration more than the stream has unread
characters. -/
def process (extract : Str → Option (Movie × Str)) (is : IStream)
    (hostAndPath : List Str) : Option (Str × List Movie) :=
  match hostAndPath[0]? with
  | none => none
  | some host =>
    match hostAndPath[1]? with
    | none => none
    | some path =>
      let os := requestText host path
      let afterHeaders := skipHeaders ((is.getD []).length + 1) is
      let afterHeaderRow := (getline afterHeaders).2
      match decodeLoop extract ((afterHeaderRow.getD []).length + 1) afterHeaderRow with
      | none => none
      | some movieDB => some (os, movieDB)

end Process

/-! ## The tokenizer of the specification -/

/-- The separators of the specification's tokenizer: comma, double quote and
whitespace. -/
def isSeparator (c : Char) : Bool := c == ',' || c == '"' || isspace c

/-- The tokens as the specification words them: the maximal runs of
characters of `s` that are not separators, in order. -/
def maximalRuns (s : Str) : List Str :=
  (s.splitOnP isSeparator).filter (fun run => run ≠ [])

/-! ## A sample record type -/

/-- Modelled from the spec: `Movie.h` is not among the sources.  A record with
the columns `title`, `year` and `genre` that the specification names; it only
instantiates the parameters `Movie` and `getCol` in concrete examples. -/
structure SampleMovie where
  title : Str
  year : Str
  genre : Str
  deriving DecidableEq

/-- Modelled from the spec: the accessor of `SampleMovie`; a name outside the
three columns gives the empty string. -/
def SampleMovie.getCol (m : SampleMovie) (col : Str) : Str :=
  if col = "title".toList then m.title
  else if col = "year".toList then m.year
  else if col = "genre".toList then m.genre
  else []

/-- A sample record of genre `Comedy`. -/
def comedyMovie : SampleMovie :=
  ⟨"Clue".toList, "1985".toList, "Comedy".toList⟩

/-- A sample record of genre `Action`. -/
def actionMovie : SampleMovie :=
  ⟨"Heat".toList, "1995".toList, "Action".toList⟩

/-- Modelled from the spec: the record reader of `SampleMovie` (`operator>>`
is declared in the absent `Movie.h`).  It takes one line, tokenizes it as
`split` does and stores the first three tokens, an absent one as the empty
string; it fails on a line without a token. -/
def sampleExtract (buf : Str) : Option (SampleMovie × Str) :=
  match split (buf.takeWhile (fun c => c != '\n')) with
  | [] => none
  | title :: fields =>
    some (⟨title, fields.headD [], (fields.drop 1).headD []⟩,
      (buf.dropWhile (fun c => c != '\n')).drop 1)

/-! ## A line longer than an `int` can index -/

/-- A run of `2 ^ 31` characters `a`. -/
def longPrefix : Str := List.replicate (2 ^ 31) 'a'

/-- A query line whose dataset URL starts after `2 ^ 31` characters. -/
def longLine : Str :=
  longPrefix ++ "\"http".toList ++ "://h/p".toList ++ ".txt".toList ++ " title".toList

/-! ## Machine integers: the values that occur -/

theorem toInt32_of_lt (n : Nat) (h : n < 2 ^ 31) : toInt32 (n : Int) = n := by
  unfold toInt32
  simp only
  split <;> omega

theorem toInt32_of_range (z : Int) (h1 : -2 ^ 31 ≤ z) (h2 : z < 2 ^ 31) :
    toInt32 z = z := by
  unfold toInt32
  simp only
  split <;> omega

theorem toInt32_npos : toInt32 (npos : Nat) = -1 := by
  unfold toInt32 npos
  norm_num

theorem toSizeT_natCast (n : Nat) (h : n < 2 ^ 64) : toSizeT (n : Int) = n := by
  unfold toSizeT
  omega

theorem toSizeT_neg (z : Int) (h1 : -2 ^ 31 ≤ z) (h2 : z < 0) :
    toSizeT z = 2 ^ 64 - (-z).toNat := by
  unfold toSizeT
  omega

theorem posValue_some (i : Nat) : posValue (some i) = i := rfl

theorem posValue_none : posValue none = npos := rfl

/-! ## `find` returns the first occurrence -/

theorem findFrom_eq_some_of_first (pat : Str) :
    ∀ (s : Str) (i k : Nat), pat <+: s.drop k → k ≤ s.length →
      (∀ j, j < k → ¬ pat <+: s.drop j) → findFrom pat s i = some (i + k) := by
  intro s
  induction s with
  | nil =>
    intro i k hp hk _
    simp at hk
    subst hk
    simp at hp
    simp [findFrom, hp]
  | cons c rest ih =>
    intro i k hp hk hfirst
    cases k with
    | zero =>
      simp at hp
      simp [findFrom, List.isPrefixOf_iff_prefix, hp]
    | succ k =>
      have h0 : ¬ pat <+: (c :: rest) := by
        have := hfirst 0 (Nat.succ_pos k)
        simpa using this
      have hrec := ih (i + 1) k (by simpa using hp) (by simpa using hk)
        (fun j hj => by simpa using hfirst (j + 1) (Nat.succ_lt_succ hj))
      simp [findFrom, List.isPrefixOf_iff_prefix, h0, hrec]
      omega

theorem findFrom_some_spec (pat : Str) :
    ∀ (s : Str) (i r : Nat), findFrom pat s i = some r →
      ∃ k, r = i + k ∧ k ≤ s.length ∧ pat <+: s.drop k ∧
        ∀ j, j < k → ¬ pat <+: s.drop j := by
  intro s
  induction s with
  | nil =>
    intro i r h
    by_cases hp : pat = []
    · simp [findFrom, hp] at h
      exact ⟨0, by simp [h], by simp, by simp [hp], by simp⟩
    · simp [findFrom, hp] at h
  | cons c rest ih =>
    intro i r h
    by_cases hp : pat <+: (c :: rest)
    · simp [findFrom, List.isPrefixOf_iff_prefix, hp] at h
      exact ⟨0, by simp [h], by simp, by simpa using hp, by simp⟩
    · simp [findFrom, List.isPrefixOf_iff_prefix, hp] at h
      obtain ⟨k, hr, hk, hpre, hfirst⟩ := ih (i + 1) r h
      refine ⟨k + 1, by omega, by simpa using hk, by simpa using hpre, ?_⟩
      intro j hj
      cases j with
      | zero => simpa using hp
      | succ j => simpa using hfirst j (by omega)

theorem findFrom_none_spec (pat : Str) :
    ∀ (s : Str) (i : Nat), findFrom pat s i = none →
      ∀ j, ¬ pat <+: s.drop j := by
  intro s
  induction s with
  | nil =>
    intro i h j
    by_cases hp : pat = []
    · simp [findFrom, hp] at h
    · simpa using hp
  | cons c rest ih =>
    intro i h j
    by_cases hp : pat <+: (c :: rest)
    · simp [findFrom, List.isPrefixOf_iff_prefix, hp] at h
    · simp [findFrom, List.isPrefixOf_iff_prefix, hp] at h
      cases j with
      | zero => simpa using hp
      | succ j => simpa using ih (i + 1) h j

/-- The call `s.find(pat)` gives position `k` when `pat` starts at `k` and at
no earlier position. -/
theorem find_eq_some_of_first (s pat : Str) (k : Nat) (hp : pat <+: s.drop k)
    (hk : k ≤ s.length) (hfirst : ∀ j, j < k → ¬ pat <+: s.drop j) :
    find s pat = some k := by
  have := findFrom_eq_some_of_first pat s 0 k hp hk hfirst
  simpa [find] using this

theorem find_some_le (s pat : Str) (k : Nat) (h : find s pat = some k) :
    k ≤ s.length ∧ pat <+: s.drop k := by
  obtain ⟨k', hr, hk, hpre, _⟩ := findFrom_some_spec pat s 0 k h
  have : k = k' := by omega
  subst this
  exact ⟨hk, hpre⟩

/-- The call `s.find(pat)` finds something exactly when `pat` is a contiguous
substring of `s`. -/
theorem find_ne_none_iff (s pat : Str) : find s pat ≠ none ↔ pat <:+: s := by
  constructor
  · intro h
    cases hf : find s pat with
    | none => exact absurd hf h
    | some k =>
      obtain ⟨_, hpre⟩ := find_some_le s pat k hf
      exact hpre.isInfix.trans (List.drop_suffix k s).isInfix
  · intro h hf
    obtain ⟨a, b, hab⟩ := h
    apply findFrom_none_spec pat s 0 hf a.length
    rw [← hab]
    simp [List.append_assoc]

theorem substr_eq (s : Str) (pos count : Nat) (h : pos ≤ s.length) :
    substr s pos count = some ((s.drop pos).take count) := by
  unfold substr
  rw [if_neg (by omega)]
  congr 1
  rcases Nat.le_total count (s.length - pos) with h1 | h1
  · rw [Nat.min_eq_left h1]
  · rw [Nat.min_eq_right h1, List.take_of_length_le (by simp),
      List.take_of_length_le (by simpa using h1)]


/-! ## `split`: what a token is made of -/

theorem not_mem_replace (s : Str) (a b : Char) (hab : a ≠ b) : a ∉ replace s a b := by
  unfold replace
  intro h
  obtain ⟨c, _, hc⟩ := List.mem_map.mp h
  by_cases hca : c = a
  · rw [if_pos hca] at hc
    exact hab hc.symm
  · rw [if_neg hca] at hc
    exact hca hc

theorem mem_replace_ne (s : Str) (a b x : Char) (hx : x ∉ s) (hxb : x ≠ b) :
    x ∉ replace s a b := by
  unfold replace
  intro h
  obtain ⟨c, hcs, hc⟩ := List.mem_map.mp h
  by_cases hca : c = a
  · rw [if_pos hca] at hc
    exact hxb hc.symm
  · rw [if_neg hca] at hc
    exact hx (hc ▸ hcs)

theorem replace_append (s t : Str) (a b : Char) :
    replace (s ++ t) a b = replace s a b ++ replace t a b := by
  simp [replace]

/-- Every token read by the extraction loop is non-empty, free of whitespace,
and made of characters of the pending word or of the remaining input. -/
theorem extractWords_token (s : Str) :
    ∀ (word : Str), (∀ c ∈ word, isspace c = false) →
      ∀ w ∈ extractWords s word,
        w ≠ [] ∧ ∀ c ∈ w, isspace c = false ∧ (c ∈ word ∨ c ∈ s) := by
  induction s with
  | nil =>
    intro word hword w hw
    by_cases hne : word = []
    · simp [extractWords, hne] at hw
    · simp [extractWords, hne] at hw
      subst hw
      exact ⟨hne, fun c hc => ⟨hword c hc, Or.inl hc⟩⟩
  | cons c rest ih =>
    intro word hword w hw
    by_cases hsp : isspace c = true
    · by_cases hne : word = []
      · simp [extractWords, hsp, hne] at hw
        obtain ⟨h1, h2⟩ := ih [] (by simp) w hw
        refine ⟨h1, fun x hx => ?_⟩
        obtain ⟨h3, h4⟩ := h2 x hx
        refine ⟨h3, Or.inr ?_⟩
        rcases h4 with h4 | h4
        · simp at h4
        · exact List.mem_cons_of_mem _ h4
      · simp [extractWords, hsp, hne] at hw
        rcases hw with hw | hw
        · subst hw
          exact ⟨hne, fun x hx => ⟨hword x hx, Or.inl hx⟩⟩
        · obtain ⟨h1, h2⟩ := ih [] (by simp) w hw
          refine ⟨h1, fun x hx => ?_⟩
          obtain ⟨h3, h4⟩ := h2 x hx
          refine ⟨h3, Or.inr ?_⟩
          rcases h4 with h4 | h4
          · simp at h4
          · exact List.mem_cons_of_mem _ h4
    · have hsp' : isspace c = false := by simpa using hsp
      simp [extractWords, hsp'] at hw
      have hword' : ∀ x ∈ word ++ [c], isspace x = false := by
        intro x hx
        rcases List.mem_append.mp hx with hx | hx
        · exact hword x hx
        · simp at hx
          subst hx
          exact hsp'
      obtain ⟨h1, h2⟩ := ih (word ++ [c]) hword' w hw
      refine ⟨h1, fun x hx => ?_⟩
      obtain ⟨h3, h4⟩ := h2 x hx
      refine ⟨h3, ?_⟩
      rcases h4 with h4 | h4
      · rcases List.mem_append.mp h4 with h5 | h5
        · exact Or.inl h5
        · simp at h5
          subst h5
          exact Or.inr (List.mem_cons_self _ _)
      · exact Or.inr (List.mem_cons_of_mem _ h4)

/-- A whitespace character ends the pending word: the tokens of `a ++ c :: b`
are those of `a` followed by those of `b`. -/
theorem extractWords_append_space (a b : Str) (c : Char) (hc : isspace c = true) :
    ∀ (word : Str),
      extractWords (a ++ c :: b) word = extractWords a word ++ extractWords b [] := by
  induction a with
  | nil =>
    intro word
    by_cases hne : word = []
    · simp [extractWords, hc, hne]
    · simp [extractWords, hc, hne]
  | cons x rest ih =>
    intro word
    by_cases hsp : isspace x = true
    · by_cases hne : word = []
      · simp [extractWords, hsp, hne, ih]
      · simp [extractWords, hsp, hne, ih]
    · have hsp' : isspace x = false := by simpa using hsp
      simp [extractWords, hsp', ih]

theorem split_append_space (a b : Str) :
    split (a ++ " ".toList ++ b) = split a ++ split b := by
  unfold split
  have h : replace (replace (a ++ " ".toList ++ b) ',' ' ') '"' ' ' =
      replace (replace a ',' ' ') '"' ' ' ++ ' ' :: replace (replace b ',' ' ') '"' ' ' := by
    simp [replace]
  rw [h]
  exact extractWords_append_space _ _ ' ' (by decide) []


/-! ## Positions inside a short line -/

theorem toSizeT_toInt32_posValue (k : Nat) (hk : k < 2 ^ 31) :
    toSizeT (toInt32 (posValue (some k))) = k := by
  rw [posValue_some, toInt32_of_lt k hk]
  exact toSizeT_natCast k (by omega)

theorem substr_whole_tail (s : Str) (pos : Nat) (h : pos ≤ s.length)
    (hs : s.length < 2 ^ 31) : substr s pos npos = some (s.drop pos) := by
  rw [substr_eq s pos npos h, List.take_of_length_le]
  simp only [List.length_drop, npos]
  omega

/-- C6: every token returned by `split` is non-empty and holds no comma, no
double quote and no whitespace character; `split("title, year")` is
`["title", "year"]`. -/
theorem split_tokens_clean (s : Str) :
    (∀ w ∈ split s,
      w ≠ [] ∧ ',' ∉ w ∧ '"' ∉ w ∧ ∀ c ∈ w, isspace c = false) ∧
    split "title, year".toList = ["title".toList, "year".toList] := by
  refine ⟨fun w hw => ?_, by decide⟩
  obtain ⟨hne, hchars⟩ := extractWords_token _ [] (by simp) w hw
  have hcomma : ',' ∉ replace (replace s ',' ' ') '"' ' ' :=
    mem_replace_ne _ _ _ _ (not_mem_replace s ',' ' ' (by decide)) (by decide)
  have hquote : '"' ∉ replace (replace s ',' ' ') '"' ' ' :=
    not_mem_replace _ '"' ' ' (by decide)
  refine ⟨hne, ?_, ?_, fun c hc => (hchars c hc).1⟩
  · intro h
    rcases (hchars _ h).2 with h1 | h1
    · simp at h1
    · exact hcomma h1
  · intro h
    rcases (hchars _ h).2 with h1 | h1
    · simp at h1
    · exact hquote h1

/-- C5, as the code has it: on a line `pre ++ "\"http" ++ mid ++ ".txt" ++ post`
of fewer than
`2 ^ 31` characters in which the shown markers are the first occurrences of
`"http` and of `.txt`, `parseCategories` returns `split (pre ++ " " ++ post)`,
which is `split pre ++ split post`: the span with both markers is gone and
the tokens around it keep their order. -/
theorem parseCategories_removes_url (line pre mid post : Str)
    (hline : line = pre ++ "\"http".toList ++ mid ++ ".txt".toList ++ post)
    (hlen : line.length < 2 ^ 31)
    (hstart : ∀ j, j < pre.length → ¬ "\"http".toList <+: line.drop j)
    (hend : ∀ j, j < pre.length + 5 + mid.length → ¬ ".txt".toList <+: line.drop j) :
    parseCategories line = some (split (pre ++ " ".toList ++ post)) ∧
      split (pre ++ " ".toList ++ post) = split pre ++ split post := by
  refine ⟨?_, split_append_space pre post⟩
  have hlen' : pre.length + 5 + mid.length + 4 + post.length = line.length := by
    rw [hline]
    simp [List.length_append]
    omega
  have hdrop1 : line.drop pre.length = "\"http".toList ++ mid ++ ".txt".toList ++ post := by
    rw [hline]
    simp only [List.append_assoc]
    exact List.drop_left _ _
  have hdrop2 : line.drop (pre.length + 5 + mid.length) = ".txt".toList ++ post := by
    have h5 : pre.length + 5 + mid.length = (pre ++ "\"http".toList ++ mid).length := by
      simp [List.length_append]
      omega
    have h6 : line = (pre ++ "\"http".toList ++ mid) ++ (".txt".toList ++ post) := by
      rw [hline]
      simp only [List.append_assoc]
    rw [h5]
    conv_lhs => rw [h6]
    exact List.drop_left _ _
  have hdrop3 : line.drop (pre.length + 5 + mid.length + 4) = post := by
    rw [← List.drop_drop, hdrop2]
    rfl
  have hf1 : find line "\"http".toList = some pre.length :=
    find_eq_some_of_first line _ _
      (by rw [hdrop1]; simp only [List.append_assoc]; exact List.prefix_append _ _)
      (by omega) hstart
  have hf2 : find line ".txt".toList = some (pre.length + 5 + mid.length) :=
    find_eq_some_of_first line _ _
      (by rw [hdrop2]; exact List.prefix_append _ _) (by omega) hend
  have htake : line.take pre.length = pre := by
    rw [hline]
    simp only [List.append_assoc]
    exact List.take_left _ _
  unfold parseCategories
  simp only [hf1, hf2]
  rw [toSizeT_toInt32_posValue _ (by omega), substr_eq _ _ _ (by omega)]
  simp only [List.drop_zero, htake]
  rw [posValue_some, toInt32_of_lt _ (by omega)]
  have h4 : ((pre.length + 5 + mid.length : Nat) : Int) + 4 =
      ((pre.length + 5 + mid.length + 4 : Nat) : Int) := by push_cast; ring
  rw [h4, toInt32_of_lt _ (by omega), toSizeT_natCast _ (by omega),
    substr_whole_tail _ _ (by omega) hlen, hdrop3]

/-- Witness of C5 on a line that embeds the dataset URL. -/
theorem parseCategories_removes_url_witness :
    parseCategories
        "title year \"http://host.org/data/movies.txt\" where genre has Comedy".toList =
      some (split ("title year ".toList ++ " ".toList ++
        "\" where genre has Comedy".toList)) ∧
    split ("title year ".toList ++ " ".toList ++ "\" where genre has Comedy".toList) =
      split "title year ".toList ++ split "\" where genre has Comedy".toList :=
  parseCategories_removes_url
    "title year \"http://host.org/data/movies.txt\" where genre has Comedy".toList
    "title year ".toList "://host.org/data/movies".toList
    "\" where genre has Comedy".toList (by decide) (by decide) (by decide) (by decide)


/-! ## `trim` -/

theorem trim_append_space (s : Str) : trim (s ++ " ".toList) = trim s := by
  have h : (s ++ " ".toList).reverse = ' ' :: s.reverse := by simp
  have hsp : isspace ' ' = true := by decide
  unfold trim trimRight
  rw [h, List.dropWhile_cons, if_pos hsp]

theorem trim_head_not_space (s : Str) (c : Char) (h : (trim s).head? = some c) :
    isspace c = false := by
  have := List.head?_dropWhile_not isspace (trimRight s)
  unfold trim trimLeft at h
  rw [h] at this
  simpa using this

theorem trim_last_not_space (s : Str) (c : Char) (h : (trim s).getLast? = some c) :
    isspace c = false := by
  obtain ⟨ys, hys⟩ := List.getLast?_eq_some_iff.mp h
  obtain ⟨t, ht⟩ : trim s <:+ trimRight s := List.dropWhile_suffix isspace
  have h1 : (trimRight s).getLast? = some c := by
    rw [← ht, hys, ← List.append_assoc]
    simp
  unfold trimRight at h1
  rw [List.getLast?_reverse] at h1
  have := List.head?_dropWhile_not isspace s.reverse
  rw [h1] at this
  simpa using this

/-! ## The projection loop in closed form -/

section EvaluationLemmas

variable {Movie : Type}

theorem subSizeT_of_le (a b : Nat) (h : b ≤ a) : subSizeT a b = a - b := by
  unfold subSizeT
  rw [if_pos h]

/-- While the counter stays below `cols.size() - 1`, every value is followed
by a space. -/
theorem projectLoop_spaced (getCol : Movie → Str → Str) (m : Movie) (cols : List Str) :
    ∀ (k i : Nat) (out : Str), i + k < cols.length →
      projectLoop getCol m cols k i out =
        some (out ++ (((cols.drop i).take k).map
          (fun c => getCol m c ++ " ".toList)).flatten) := by
  intro k
  induction k with
  | zero =>
    intro i out _
    simp [projectLoop]
  | succ k ih =>
    intro i out h
    have hi : i < cols.length := by omega
    have hsep : i < subSizeT cols.length 1 := by
      rw [subSizeT_of_le _ _ (by omega)]
      omega
    rw [projectLoop, List.getElem?_eq_getElem hi]
    simp only [if_pos hsep]
    have hd : (cols.drop i).take (k + 1) = cols[i] :: (cols.drop (i + 1)).take k := by
      rw [List.drop_eq_getElem_cons hi, List.take_succ_cons]
    rw [ih (i + 1) _ (by omega), hd]
    simp only [List.map_cons, List.flatten_cons, List.append_assoc]

/-- A loop that runs to the end of `cols` joins the values with single spaces. -/
theorem projectLoop_joined (getCol : Movie → Str → Str) (m : Movie) (cols : List Str) :
    ∀ (k i : Nat) (out : Str), i + k = cols.length →
      projectLoop getCol m cols k i out =
        some (out ++ " ".toList.intercalate ((cols.drop i).map (getCol m))) := by
  intro k
  induction k with
  | zero =>
    intro i out h
    have : cols.drop i = [] := List.drop_eq_nil_of_le (by omega)
    simp [projectLoop, this, List.intercalate]
  | succ k ih =>
    intro i out h
    have hi : i < cols.length := by omega
    rw [projectLoop, List.getElem?_eq_getElem hi]
    simp only
    rw [ih (i + 1) _ (by omega), List.drop_eq_getElem_cons hi]
    by_cases hk : k = 0
    · have hnil : cols.drop (i + 1) = [] := List.drop_eq_nil_of_le (by omega)
      have hsep : ¬ i < subSizeT cols.length 1 := by
        rw [subSizeT_of_le _ _ (by omega)]
        omega
      rw [hnil, if_neg hsep]
      simp only [List.map_cons, List.map_nil, List.intercalate, List.intersperse_single,
        List.intersperse_nil, List.flatten_cons, List.flatten_nil, List.append_nil]
    · have hi1 : i + 1 < cols.length := by omega
      have hsep : i < subSizeT cols.length 1 := by
        rw [subSizeT_of_le _ _ (by omega)]
        omega
      rw [List.drop_eq_getElem_cons hi1, if_pos hsep]
      simp only [List.map_cons, List.intercalate, List.intersperse_cons₂,
        List.flatten_cons, List.append_assoc]

/-- Values each followed by a space trim to the same line as values joined by
single spaces. -/
theorem trim_spaced_eq_trim_joined (vs : List Str) :
    trim ((vs.map (fun v => v ++ " ".toList)).flatten) =
      trim (" ".toList.intercalate vs) := by
  have h : ∀ (l : List Str), l ≠ [] →
      (l.map (fun v => v ++ " ".toList)).flatten =
        " ".toList.intercalate l ++ " ".toList := by
    intro l
    induction l with
    | nil => intro h; exact absurd rfl h
    | cons v rest ih =>
      intro _
      cases rest with
      | nil => simp [List.intercalate]
      | cons w rest =>
        have := ih (by simp)
        simp only [List.map_cons, List.flatten_cons] at this ⊢
        rw [this]
        simp [List.intercalate, List.append_assoc]
  by_cases hvs : vs = []
  · subst hvs
    rfl
  · rw [h vs hvs, trim_append_space]

end EvaluationLemmas


/-! ## The two printing functions in closed form -/

section PrintingLemmas

variable {Movie : Type}

theorem whereLine_eq (getCol : Movie → Str → Str) (m : Movie) (cols : List Str)
    (h4 : 4 ≤ cols.length) :
    (projectLoop getCol m cols (subSizeT cols.length 4) 0 []).map trim =
      some (formatLine getCol (cols.take (cols.length - 4)) m) := by
  rw [subSizeT_of_le _ _ h4, projectLoop_spaced getCol m cols _ 0 [] (by omega)]
  simp only [Option.map_some', List.drop_zero, List.nil_append, formatLine]
  rw [← trim_spaced_eq_trim_joined, List.map_map]
  rfl

theorem moviesWhereLoop_eq (getCol : Movie → Str → Str) (cols : List Str)
    (desiredTrait desiredTraitName : Str) (h4 : 4 ≤ cols.length) :
    ∀ (movieDB : List Movie),
      moviesWhereLoop getCol cols desiredTrait desiredTraitName movieDB =
        some ((movieDB.filter
          (fun m => decide (desiredTrait <:+: getCol m desiredTraitName))).map
          (formatLine getCol (cols.take (cols.length - 4)))) := by
  intro movieDB
  induction movieDB with
  | nil => rfl
  | cons m rest ih =>
    have hline := whereLine_eq getCol m cols h4
    rw [moviesWhereLoop, ih]
    by_cases hfound : desiredTrait <:+: getCol m desiredTraitName
    · have hne : find (getCol m desiredTraitName) desiredTrait ≠ none :=
        (find_ne_none_iff _ _).mpr hfound
      cases hp : projectLoop getCol m cols (subSizeT cols.length 4) 0 [] with
      | none => rw [hp] at hline; simp at hline
      | some output =>
        rw [hp] at hline
        simp only [Option.map_some', Option.some.injEq] at hline
        simp [hne, hfound, hline]
    · have hnone : find (getCol m desiredTraitName) desiredTrait = none := by
        by_contra hne
        exact hfound ((find_ne_none_iff _ _).mp hne)
      simp [hnone, hfound]

theorem moviesNoWhere_eq (getCol : Movie → Str → Str) (cols : List Str) :
    ∀ (movieDB : List Movie),
      moviesNoWhere getCol movieDB cols = some (movieDB.map (formatLine getCol cols)) := by
  intro movieDB
  induction movieDB with
  | nil => rfl
  | cons m rest ih =>
    rw [moviesNoWhere, projectLoop_joined getCol m cols _ 0 [] (by omega), ih]
    simp [formatLine]

theorem moviesWhere_eq (getCol : Movie → Str → Str) (movieDB : List Movie)
    (cols : List Str) (desiredTrait desiredTraitName : Str) (h4 : 4 ≤ cols.length)
    (htrait : cols[cols.length - 1]? = some desiredTrait)
    (hname : cols[cols.length - 3]? = some desiredTraitName) :
    moviesWhere getCol movieDB cols =
      some ((movieDB.filter
        (fun m => decide (desiredTrait <:+: getCol m desiredTraitName))).map
        (formatLine getCol (cols.take (cols.length - 4)))) := by
  unfold moviesWhere
  rw [subSizeT_of_le _ _ (by omega), subSizeT_of_le _ _ (by omega), htrait, hname]
  exact moviesWhereLoop_eq getCol cols desiredTrait desiredTraitName h4 movieDB

theorem printMoviesByCol_where (getCol : Movie → Str → Str) (movieDB : List Movie)
    (cols : List Str) (h4 : 4 ≤ cols.length)
    (hwhere : cols[cols.length - 4]? = some "where".toList) :
    printMoviesByCol getCol movieDB cols = moviesWhere getCol movieDB cols := by
  unfold printMoviesByCol
  rw [if_pos h4, subSizeT_of_le _ _ h4, hwhere]
  simp

theorem printMoviesByCol_noWhere (getCol : Movie → Str → Str) (movieDB : List Movie)
    (cols : List Str)
    (h : ¬ (4 ≤ cols.length ∧ cols[cols.length - 4]? = some "where".toList)) :
    printMoviesByCol getCol movieDB cols = moviesNoWhere getCol movieDB cols := by
  unfold printMoviesByCol
  by_cases h4 : 4 ≤ cols.length
  · rw [if_pos h4, subSizeT_of_le _ _ h4]
    have hi : cols.length - 4 < cols.length := by omega
    rw [List.getElem?_eq_getElem hi] at h ⊢
    have hne : cols[cols.length - 4] ≠ "where".toList := by
      intro heq
      exact h ⟨h4, by rw [heq]⟩
    simp only [if_neg hne]
  · rw [if_neg h4]

end PrintingLemmas


/-! ## Claims about query evaluation -/

section EvaluationClaims

variable {Movie : Type}

/-- C1: for a token list that `printMoviesByCol` treats as filtered (at least
four tokens, `where` at position `size - 4`), `moviesWhere` is the function
that runs, and its lines are, in dataset order, one for each record whose value
at the column `cols[size - 3]` contains `cols[size - 1]` as a contiguous
substring: the dataset is filtered, nothing else is dropped or repeated. -/
theorem moviesWhere_emits_matching (getCol : Movie → Str → Str)
    (movieDB : List Movie) (cols : List Str) (desiredTrait desiredTraitName : Str)
    (h4 : 4 ≤ cols.length)
    (hwhere : cols[cols.length - 4]? = some "where".toList)
    (htrait : cols[cols.length - 1]? = some desiredTrait)
    (hname : cols[cols.length - 3]? = some desiredTraitName) :
    printMoviesByCol getCol movieDB cols = moviesWhere getCol movieDB cols ∧
      moviesWhere getCol movieDB cols =
        some ((movieDB.filter
          (fun m => decide (desiredTrait <:+: getCol m desiredTraitName))).map
          (formatLine getCol (cols.take (cols.length - 4)))) :=
  ⟨printMoviesByCol_where getCol movieDB cols h4 hwhere,
    moviesWhere_eq getCol movieDB cols desiredTrait desiredTraitName h4 htrait hname⟩

/-- Witness of C1: a dataset with a repeated matching record and one record
that does not match. -/
theorem moviesWhere_emits_matching_witness :
    printMoviesByCol SampleMovie.getCol [comedyMovie, actionMovie, comedyMovie]
        (split "title year where genre has Come".toList) =
      moviesWhere SampleMovie.getCol [comedyMovie, actionMovie, comedyMovie]
        (split "title year where genre has Come".toList) ∧
    moviesWhere SampleMovie.getCol [comedyMovie, actionMovie, comedyMovie]
        (split "title year where genre has Come".toList) =
      some ["Clue 1985".toList, "Clue 1985".toList] :=
  have h := moviesWhere_emits_matching SampleMovie.getCol
    [comedyMovie, actionMovie, comedyMovie]
    (split "title year where genre has Come".toList) "Come".toList "genre".toList
    (by decide) (by decide) (by decide) (by decide)
  ⟨h.1, h.2.trans (by decide)⟩

/-- C2: without a filter, `moviesNoWhere` writes exactly one line per record,
in dataset order; the line of a record is the trimmed join, by single spaces,
of its values at the requested columns in the requested order (so the columns
`year`, `title` put the year first), and a line neither starts nor ends with a
whitespace character. -/
theorem moviesNoWhere_one_line_per_record (getCol : Movie → Str → Str)
    (movieDB : List Movie) (cols : List Str) :
    moviesNoWhere getCol movieDB cols =
        some (movieDB.map
          (fun m => trim (" ".toList.intercalate (cols.map (getCol m))))) ∧
      moviesNoWhere getCol movieDB ["year".toList, "title".toList] =
        some (movieDB.map
          (fun m => trim (getCol m "year".toList ++ " ".toList ++
            getCol m "title".toList))) ∧
      ∀ (m : Movie) (c : Char),
        ((trim (" ".toList.intercalate (cols.map (getCol m)))).head? = some c →
            isspace c = false) ∧
          ((trim (" ".toList.intercalate (cols.map (getCol m)))).getLast? = some c →
            isspace c = false) := by
  refine ⟨moviesNoWhere_eq getCol cols movieDB, ?_, fun m c =>
    ⟨trim_head_not_space _ c, trim_last_not_space _ c⟩⟩
  rw [moviesNoWhere_eq]
  simp [formatLine, List.intercalate, List.append_assoc]

/-- C3: `printMoviesByCol` evaluates the token list as a filtered query exactly
when it has at least four tokens and `cols[len - 4]` is `where`; the filter
substring is then the last token, the filter column is `cols[len - 3]` and the
projected columns are the tokens before position `len - 4`.  In every other
case there is no filter and the projected columns are the whole token list. -/
theorem printMoviesByCol_interprets (getCol : Movie → Str → Str)
    (movieDB : List Movie) (cols : List Str) :
    printMoviesByCol getCol movieDB cols =
      some (evaluate getCol movieDB
        (if 4 ≤ cols.length ∧ cols[cols.length - 4]? = some "where".toList then
          { columns := cols.take (cols.length - 4)
            filter := some (cols.getD (cols.length - 3) [],
              cols.getD (cols.length - 1) []) }
        else { columns := cols, filter := none })) := by
  by_cases h : 4 ≤ cols.length ∧ cols[cols.length - 4]? = some "where".toList
  · rw [if_pos h, printMoviesByCol_where getCol movieDB cols h.1 h.2]
    have h1 : cols.length - 1 < cols.length := by omega
    have h3 : cols.length - 3 < cols.length := by omega
    rw [moviesWhere_eq getCol movieDB cols (cols.getD (cols.length - 1) [])
      (cols.getD (cols.length - 3) []) h.1
      (by rw [List.getD_eq_getElem _ _ h1, List.getElem?_eq_getElem h1])
      (by rw [List.getD_eq_getElem _ _ h3, List.getElem?_eq_getElem h3])]
    rfl
  · rw [if_neg h, printMoviesByCol_noWhere getCol movieDB cols h, moviesNoWhere_eq]
    simp [evaluate]

end EvaluationClaims


section WhereClauseShape

variable {Movie : Type}

/-- C4, as the code has it: the text `title year where genre Comedy` gives five
tokens with `year`, not `where`, at position `len - 4`, so it is evaluated
without a filter and every record, of genre `Comedy` or `Action`, gives a line
made of the five looked-up tokens.  With one more token `op` between the filter
column and the substring, the tokens are a filtered query with the projected
columns `title`, `year` and the filter (`genre`, `Comedy`): the record of genre
`Comedy` gives its trimmed title and year, the record of genre `Action` gives
nothing. -/
theorem where_clause_has_four_tokens (getCol : Movie → Str → Str) (m₁ m₂ : Movie)
    (op : Str)
    (h₁ : getCol m₁ "genre".toList = "Comedy".toList)
    (h₂ : getCol m₂ "genre".toList = "Action".toList) :
    split "title year where genre Comedy".toList =
        ["title".toList, "year".toList, "where".toList, "genre".toList,
          "Comedy".toList] ∧
      printMoviesByCol getCol [m₁, m₂] (split "title year where genre Comedy".toList) =
        some [formatLine getCol (split "title year where genre Comedy".toList) m₁,
          formatLine getCol (split "title year where genre Comedy".toList) m₂] ∧
      printMoviesByCol getCol [m₁, m₂]
          ["title".toList, "year".toList, "where".toList, "genre".toList, op,
            "Comedy".toList] =
        some [trim (getCol m₁ "title".toList ++ " ".toList ++ getCol m₁ "year".toList)] := by
  have hsplit : split "title year where genre Comedy".toList =
      ["title".toList, "year".toList, "where".toList, "genre".toList,
        "Comedy".toList] := by decide
  refine ⟨hsplit, ?_, ?_⟩
  · rw [printMoviesByCol_noWhere getCol _ _ (by rw [hsplit]; decide), moviesNoWhere_eq]
    rfl
  · rw [printMoviesByCol_where getCol _ _ (by simp) (by simp),
      moviesWhere_eq getCol _ _ "Comedy".toList "genre".toList (by simp) (by simp)
        (by simp)]
    have e₁ : decide ("Comedy".toList <:+: getCol m₁ "genre".toList) = true := by
      rw [h₁]; decide
    have e₂ : decide ("Comedy".toList <:+: getCol m₂ "genre".toList) = false := by
      rw [h₂]; decide
    simp only [List.filter, e₁, e₂]
    simp [formatLine, List.intercalate, List.append_assoc]

/-- Witness of the amended C4 on the sample records. -/
theorem where_clause_has_four_tokens_witness :
    printMoviesByCol SampleMovie.getCol [comedyMovie, actionMovie]
        (split "title year where genre Comedy".toList) =
      some [formatLine SampleMovie.getCol
          (split "title year where genre Comedy".toList) comedyMovie,
        formatLine SampleMovie.getCol
          (split "title year where genre Comedy".toList) actionMovie] ∧
    printMoviesByCol SampleMovie.getCol [comedyMovie, actionMovie]
        ["title".toList, "year".toList, "where".toList, "genre".toList, "has".toList,
          "Comedy".toList] =
      some ["Clue 1985".toList] :=
  have h := where_clause_has_four_tokens SampleMovie.getCol comedyMovie actionMovie
    "has".toList (by decide) (by decide)
  ⟨h.2.1, h.2.2.trans (by decide)⟩

/-- C4 fails as stated: on the sample dataset the text
`title year where genre Comedy` gives a line for the record of genre `Action`
too, and its lines are not those of the query with columns `title`, `year` and
filter (`genre`, `Comedy`). -/
theorem three_token_where_not_filtered :
    printMoviesByCol SampleMovie.getCol [comedyMovie, actionMovie]
        (split "title year where genre Comedy".toList) =
      some ["Clue 1985  Comedy".toList, "Heat 1995  Action".toList] ∧
    printMoviesByCol SampleMovie.getCol [comedyMovie, actionMovie]
        (split "title year where genre Comedy".toList) ≠
      some (evaluate SampleMovie.getCol [comedyMovie, actionMovie]
        { columns := ["title".toList, "year".toList]
          filter := some ("genre".toList, "Comedy".toList) }) := by
  decide

end WhereClauseShape


/-! ## `getHostAndPath` -/

theorem toInt32_eq_natCast (z : Int) (n : Nat) (hz : z = n) (hn : n < 2 ^ 31) :
    toInt32 z = n := by
  rw [hz]
  exact toInt32_of_lt n hn

theorem toSizeT_eq_nat (z : Int) (n : Nat) (hz : z = n) (hn : n < 2 ^ 64) :
    toSizeT z = n := by
  rw [hz]
  exact toSizeT_natCast n hn

theorem not_prefix_of_not_mem (c : Char) (X rest : Str) (hX : c ∉ X) :
    ∀ j, j < X.length → ¬ [c] <+: (X ++ rest).drop j := by
  intro j hj hpre
  have hd : (X ++ rest).drop j = X[j] :: (X ++ rest).drop (j + 1) := by
    rw [List.drop_eq_getElem_cons (by simp; omega), List.getElem_append_left hj]
  rw [hd] at hpre
  obtain ⟨t, ht⟩ := hpre
  have : c = X[j] := by
    simp at ht
    exact ht.1
  exact hX (this ▸ List.getElem_mem hj)

theorem find_none_of_not_mem (c : Char) (s : Str) (h : c ∉ s) : find s [c] = none := by
  cases hf : find s [c] with
  | none => rfl
  | some k =>
    obtain ⟨_, hpre⟩ := find_some_le s [c] k hf
    have hmem : c ∈ s.drop k := hpre.subset (List.mem_singleton_self c)
    exact absurd (List.mem_of_mem_drop hmem) h

/-- The host and path computed by `getHostAndPath` when both `find` calls
succeed at the shown markers. -/
theorem getHostAndPath_span (line pre X Y post : Str)
    (hline : line = pre ++ "http://".toList ++ X ++ "/".toList ++ Y ++ ".txt".toList ++ post)
    (hlen : line.length < 2 ^ 31) (hX : '/' ∉ X)
    (hstart : ∀ j, j < pre.length → ¬ "http://".toList <+: line.drop j)
    (hend : ∀ j, j < pre.length + 7 + X.length + 1 + Y.length →
      ¬ ".txt".toList <+: line.drop j) :
    getHostAndPath line = some [X, "/".toList ++ Y ++ ".txt".toList] := by
  have hlen' : pre.length + 7 + X.length + 1 + Y.length + 4 + post.length = line.length := by
    rw [hline]
    simp [List.length_append]
    omega
  have h1 : line = pre ++ ("http://".toList ++ (X ++ "/".toList ++ Y ++ ".txt".toList ++ post)) := by
    rw [hline]
    simp only [List.append_assoc]
  have h2 : line = (pre ++ "http://".toList) ++ ((X ++ "/".toList ++ Y ++ ".txt".toList) ++ post) := by
    rw [hline]
    simp only [List.append_assoc]
  have h3 : line = (pre ++ "http://".toList ++ X ++ "/".toList ++ Y) ++ (".txt".toList ++ post) := by
    rw [hline]
    simp only [List.append_assoc]
  have hl2 : (pre ++ "http://".toList).length = pre.length + 7 := by simp
  have hl3 : (pre ++ "http://".toList ++ X ++ "/".toList ++ Y).length =
      pre.length + 7 + X.length + 1 + Y.length := by simp; omega
  have hd1 : line.drop pre.length =
      "http://".toList ++ (X ++ "/".toList ++ Y ++ ".txt".toList ++ post) := by
    conv_lhs => rw [h1]
    exact List.drop_left _ _
  have hd2 : line.drop (pre.length + 7) = (X ++ "/".toList ++ Y ++ ".txt".toList) ++ post := by
    rw [← hl2]
    conv_lhs => rw [h2]
    exact List.drop_left _ _
  have hd3 : line.drop (pre.length + 7 + X.length + 1 + Y.length) = ".txt".toList ++ post := by
    rw [← hl3]
    conv_lhs => rw [h3]
    exact List.drop_left _ _
  have hf1 : find line "http://".toList = some pre.length :=
    find_eq_some_of_first line _ _ (by rw [hd1]; exact List.prefix_append _ _)
      (by omega) hstart
  have hf2 : find line ".txt".toList = some (pre.length + 7 + X.length + 1 + Y.length) :=
    find_eq_some_of_first line _ _ (by rw [hd3]; exact List.prefix_append _ _)
      (by omega) hend
  have hss : (line.drop (pre.length + 7)).take (X.length + 1 + Y.length + 4) =
      X ++ "/".toList ++ Y ++ ".txt".toList := by
    rw [hd2]
    have : X.length + 1 + Y.length + 4 = (X ++ "/".toList ++ Y ++ ".txt".toList).length := by
      simp
      omega
    rw [this]
    exact List.take_left _ _
  have hfs : find (X ++ "/".toList ++ Y ++ ".txt".toList) ['/'] = some X.length := by
    apply find_eq_some_of_first
    · simp only [List.append_assoc]
      rw [List.drop_left]
      exact List.prefix_append _ _
    · simp
    · simp only [List.append_assoc]
      exact not_prefix_of_not_mem '/' X _ hX
  have a0 : toInt32 (posValue (some pre.length)) = (pre.length : Int) :=
    toInt32_eq_natCast _ _ rfl (by omega)
  have a1 : toSizeT (toInt32 ((pre.length : Int) + 7)) = pre.length + 7 :=
    toSizeT_eq_nat _ _ (toInt32_eq_natCast _ _ (by push_cast; ring) (by omega)) (by omega)
  have a2 : toInt32 (posValue (some (pre.length + 7 + X.length + 1 + Y.length))) =
      ((pre.length + 7 + X.length + 1 + Y.length : Nat) : Int) :=
    toInt32_eq_natCast _ _ rfl (by omega)
  have a3 : toInt32 (((pre.length + 7 + X.length + 1 + Y.length : Nat) : Int) - pre.length) =
      ((7 + X.length + 1 + Y.length : Nat) : Int) :=
    toInt32_eq_natCast _ _ (by push_cast; ring) (by omega)
  have a4 : toSizeT (toInt32 (((7 + X.length + 1 + Y.length : Nat) : Int) - 3)) =
      X.length + 1 + Y.length + 4 :=
    toSizeT_eq_nat _ _ (toInt32_eq_natCast _ _ (by push_cast; ring) (by omega)) (by omega)
  have a5 : toSizeT (toInt32 (posValue (some X.length))) = X.length :=
    toSizeT_toInt32_posValue _ (by omega)
  have hsslen : (X ++ "/".toList ++ Y ++ ".txt".toList).length < 2 ^ 31 := by
    simp
    omega
  unfold getHostAndPath
  simp only [hf1, hf2, a0, a1, a2, a3, a4]
  rw [substr_eq _ _ _ (by omega), hss]
  simp only [hfs, a5]
  rw [substr_eq _ _ _ (by omega), substr_whole_tail _ _ (by simp) hsslen]
  simp only [List.drop_zero, List.append_assoc, List.take_left, List.drop_left]


theorem substr_mem (s r : Str) (pos count : Nat) (h : substr s pos count = some r) :
    r.length ≤ s.length ∧ ∀ c ∈ r, c ∈ s.drop pos := by
  unfold substr at h
  split at h
  · exact absurd h (by simp)
  · simp only [Option.some.injEq] at h
    subst h
    refine ⟨?_, fun c hc => List.mem_of_mem_take hc⟩
    simp only [List.length_take, List.length_drop]
    omega

/-- The position at which `getHostAndPath` starts to extract: seven characters
after the first `http://`, or `6` when the line has none. -/
theorem getHostAndPath_start (line : Str) (hlen : line.length < 2 ^ 31) :
    toSizeT (toInt32 (toInt32 (posValue (find line "http://".toList)) + 7)) =
      (find line "http://".toList).elim 6 (fun h => h + 7) := by
  cases hf : find line "http://".toList with
  | none =>
    rw [posValue_none, toInt32_npos]
    decide
  | some h =>
    obtain ⟨hle, hpre⟩ := find_some_le line _ h hf
    have h7 : h + 7 ≤ line.length := by
      have := hpre.length_le
      simp only [List.length_drop] at this
      have h7' : "http://".toList.length = 7 := by decide
      omega
    rw [posValue_some, toInt32_of_lt h (by omega)]
    show _ = h + 7
    exact toSizeT_eq_nat _ _ (toInt32_eq_natCast _ _ (by push_cast; ring) (by omega))
      (by omega)

/-- C7, as the code has it: on a line `pre ++ "http://" ++ X ++ "/" ++ Y ++
".txt" ++ post` of fewer than `2 ^ 31` characters, where `X` has no `/` and the
shown markers are the first `http://` and the first `.txt` of the line,
`getHostAndPath` returns the host `X` and the path `"/" ++ Y ++ ".txt"`: the
path keeps the extension, it is not `"/" ++ Y`. -/
theorem getHostAndPath_path_keeps_txt (line pre X Y post : Str)
    (hline : line = pre ++ "http://".toList ++ X ++ "/".toList ++ Y ++ ".txt".toList ++ post)
    (hlen : line.length < 2 ^ 31) (hX : '/' ∉ X)
    (hstart : ∀ j, j < pre.length → ¬ "http://".toList <+: line.drop j)
    (hend : ∀ j, j < pre.length + 7 + X.length + 1 + Y.length →
      ¬ ".txt".toList <+: line.drop j) :
    getHostAndPath line = some [X, "/".toList ++ Y ++ ".txt".toList] ∧
      getHostAndPath line ≠ some [X, "/".toList ++ Y] := by
  have h := getHostAndPath_span line pre X Y post hline hlen hX hstart hend
  refine ⟨h, ?_⟩
  rw [h]
  intro heq
  have hl := congrArg (fun r => (r.map (fun l => (l.map List.length).sum)).getD 0) heq
  simp at hl

/-- Witness of the amended C7 on a line with text around the URL. -/
theorem getHostAndPath_path_keeps_txt_witness :
    getHostAndPath
        "title year \"http://host.org/data/movies.txt\" where genre has Comedy".toList =
      some ["host.org".toList, "/data/movies.txt".toList] :=
  (getHostAndPath_path_keeps_txt
    "title year \"http://host.org/data/movies.txt\" where genre has Comedy".toList
    "title year \"".toList "host.org".toList "data/movies".toList
    "\" where genre has Comedy".toList (by decide) (by decide) (by decide) (by decide)
    (by decide)).1

/-- C7 fails as stated: the path returned for `http://host.org/data/movies.txt`
is `/data/movies.txt`, not `/data/movies`; and with an earlier `.txt` in the
surrounding text the path runs on to the end of the line. -/
theorem getHostAndPath_path_not_bare :
    getHostAndPath "http://host.org/data/movies.txt".toList =
        some ["host.org".toList, "/data/movies.txt".toList] ∧
      getHostAndPath "http://host.org/data/movies.txt".toList ≠
        some ["host.org".toList, "/data/movies".toList] ∧
      getHostAndPath "see a.txt http://host.org/data/movies.txt now".toList =
        some ["host.org".toList, "/data/movies.txt now".toList] := by
  decide

/-- C8, as the code has it: on a line of fewer than `2 ^ 31` characters in
which no `/` occurs from the position where the extraction starts (seven
characters after the first `http://`, or position `6` when the line has no
`http://`), `getHostAndPath` throws `std::out_of_range` and returns nothing. -/
theorem getHostAndPath_fails_without_slash (line : Str) (hlen : line.length < 2 ^ 31)
    (hslash : '/' ∉ line.drop ((find line "http://".toList).elim 6 (fun h => h + 7))) :
    getHostAndPath line = none := by
  unfold getHostAndPath
  simp only [getHostAndPath_start line hlen]
  generalize toSizeT (toInt32 (toInt32 (toInt32 (posValue (find line ".txt".toList)) -
    toInt32 (posValue (find line "http://".toList))) - 3)) = count
  cases hsub : substr line ((find line "http://".toList).elim 6 (fun h => h + 7)) count with
  | none => rfl
  | some searchString =>
    obtain ⟨hle, hmem⟩ := substr_mem _ _ _ _ hsub
    have hno : '/' ∉ searchString := fun hc => hslash (hmem _ hc)
    have hsep : toSizeT (toInt32 (posValue (find searchString ['/']))) = npos := by
      rw [find_none_of_not_mem '/' searchString hno, posValue_none, toInt32_npos]
      decide
    simp only [hsep]
    have hpath : substr searchString npos npos = none := by
      unfold substr
      rw [if_pos]
      unfold npos
      omega
    rw [hpath]
    cases substr searchString 0 npos <;> rfl

/-- Witness of the amended C8: a line with neither marker and no `/`. -/
theorem getHostAndPath_fails_without_slash_witness :
    getHostAndPath "title year where genre has Comedy".toList = none :=
  getHostAndPath_fails_without_slash "title year where genre has Comedy".toList
    (by decide) (by decide)

/-- C8 fails as stated: a line with no `http://` and no `.txt` and a line with
`http://` but no `.txt` both return a host and a path. -/
theorem getHostAndPath_returns_without_markers :
    getHostAndPath "abcdefgh/i".toList = some ["gh".toList, "/i".toList] ∧
      getHostAndPath "http://host.org/data".toList =
        some ["host.org".toList, "/data".toList] := by
  decide


/-! ## The session: startup and one pass through the loop -/

/-- The position from which `parseCategories` keeps the rest of the line: four
characters after the first `.txt`, or `3` when the line has none. -/
theorem parseCategories_resume (line : Str) (hlen : line.length < 2 ^ 31) :
    toSizeT (toInt32 (toInt32 (posValue (find line ".txt".toList)) + 4)) =
      (find line ".txt".toList).elim 3 (fun e => e + 4) ∧
    (3 ≤ line.length → (find line ".txt".toList).elim 3 (fun e => e + 4) ≤ line.length) := by
  cases hf : find line ".txt".toList with
  | none =>
    rw [posValue_none, toInt32_npos]
    exact ⟨by decide, fun h => h⟩
  | some e =>
    obtain ⟨hle, hpre⟩ := find_some_le line _ e hf
    have h4 : e + 4 ≤ line.length := by
      have := hpre.length_le
      simp only [List.length_drop] at this
      have h4' : ".txt".toList.length = 4 := by decide
      omega
    rw [posValue_some, toInt32_of_lt e (by omega)]
    refine ⟨?_, fun _ => h4⟩
    show _ = e + 4
    exact toSizeT_eq_nat _ _ (toInt32_eq_natCast _ _ (by push_cast; ring) (by omega))
      (by omega)

/-- On a line of at least three and fewer than `2 ^ 31` characters
`parseCategories` throws nothing. -/
theorem parseCategories_returns (line : Str) (h3 : 3 ≤ line.length)
    (hlen : line.length < 2 ^ 31) :
    parseCategories line =
      some (split
        (line.take (toSizeT (toInt32 (posValue (find line "\"http".toList)))) ++
          " ".toList ++ line.drop ((find line ".txt".toList).elim 3 (fun e => e + 4)))) := by
  obtain ⟨hpos, hle⟩ := parseCategories_resume line hlen
  unfold parseCategories
  simp only [hpos]
  rw [substr_eq _ _ _ (Nat.zero_le _), substr_whole_tail _ _ (hle h3) hlen]
  rfl

section SessionClaims

variable {Movie : Type}

theorem printMoviesByCol_returns (getCol : Movie → Str → Str) (movieDB : List Movie)
    (cols : List Str) : ∃ lines, printMoviesByCol getCol movieDB cols = some lines := by
  by_cases h : 4 ≤ cols.length ∧ cols[cols.length - 4]? = some "where".toList
  · have h1 : cols.length - 1 < cols.length := by omega
    have h3 : cols.length - 3 < cols.length := by omega
    exact ⟨_, (printMoviesByCol_where getCol movieDB cols h.1 h.2).trans
      (moviesWhere_eq getCol movieDB cols _ _ h.1 (List.getElem?_eq_getElem h1)
        (List.getElem?_eq_getElem h3))⟩
  · exact ⟨_, (printMoviesByCol_noWhere getCol movieDB cols h).trans
      (moviesNoWhere_eq getCol cols movieDB)⟩

/-- C9, on the code: `main` calls `networkHandler` before the loop and so
before the first `getline`; `getHostAndPath` then reads the empty `userInput`,
`substr(6, ...)` throws, and the run ends there whatever the input lines are.
The host and path of the first line are never extracted, although
`getHostAndPath` would find them in it. -/
theorem main_fetches_before_first_line (fetch : List Str → List Movie)
    (getCol : Movie → Str → Str) (fuel : Nat) (rest : Str) :
    getHostAndPath ([] : Str) = none ∧
      (∀ stdin : IStream, main fetch getCol fuel stdin = Outcome.aborted []) ∧
      main fetch getCol fuel
        (some
          ("title year \"http://host.org/data/movies.txt\" where genre has Comedy".toList ++
            '\n' :: rest)) = Outcome.aborted [] ∧
      getHostAndPath
          "title year \"http://host.org/data/movies.txt\" where genre has Comedy".toList =
        some ["host.org".toList, "/data/movies.txt".toList] := by
  have h0 : getHostAndPath ([] : Str) = none := by decide
  refine ⟨h0, fun stdin => ?_, ?_, by decide⟩
  · simp only [main, networkHandler, h0]
  · simp only [main, networkHandler, h0]

/-- C10, as the code has it: in one pass through the loop body, a line other than `exit` with
fewer than 50 characters only gets the prompt and the retry text, and nothing
is parsed; a line with 50 characters or more (and fewer than `2 ^ 31`) is
parsed by `parseCategories` and the tokens are evaluated by `printMoviesByCol`
on the loaded dataset, whose lines are printed. -/
theorem loopBody_threshold (getCol : Movie → Str → Str) (movieDB : List Movie)
    (line : Str) (hexit : line ≠ "exit".toList) :
    (line.length < 50 →
      loopBody getCol movieDB line =
        some ⟨"query> ".toList ++ "Try again".toList, false, none⟩) ∧
    (50 ≤ line.length → line.length < 2 ^ 31 →
      ∃ cols lines, parseCategories line = some cols ∧
        printMoviesByCol getCol movieDB cols = some lines ∧
        loopBody getCol movieDB line =
          some ⟨"query> ".toList ++ (lines.map (fun l => l ++ ['\n'])).flatten, false,
            some cols⟩) := by
  constructor
  · intro hshort
    unfold loopBody
    simp only [if_neg hexit, if_pos hshort]
  · intro hlong hlen
    have hparse := parseCategories_returns line (by omega) hlen
    obtain ⟨lines, hlines⟩ := printMoviesByCol_returns getCol movieDB
      (split (line.take (toSizeT (toInt32 (posValue (find line "\"http".toList)))) ++
        " ".toList ++ line.drop ((find line ".txt".toList).elim 3 (fun e => e + 4))))
    refine ⟨_, lines, hparse, hlines, ?_⟩
    unfold loopBody
    simp only [if_neg hexit, if_neg (Nat.not_lt.mpr hlong), hparse, hlines]

/-- Witness of C10 at the boundary: a line of 49 characters is rejected, the
same line with one more character is parsed and evaluated. -/
theorem loopBody_threshold_witness :
    "title year where genre has Comedy and other words".toList.length = 49 ∧
    "title year where genre has Comedy and other words!".toList.length = 50 ∧
    loopBody SampleMovie.getCol [comedyMovie, actionMovie]
        "title year where genre has Comedy and other words".toList =
      some ⟨"query> Try again".toList, false, none⟩ ∧
    ∃ cols lines,
      parseCategories "title year where genre has Comedy and other words!".toList =
        some cols ∧
      printMoviesByCol SampleMovie.getCol [comedyMovie, actionMovie] cols = some lines ∧
      loopBody SampleMovie.getCol [comedyMovie, actionMovie]
          "title year where genre has Comedy and other words!".toList =
        some ⟨"query> ".toList ++ (lines.map (fun l => l ++ ['\n'])).flatten, false,
          some cols⟩ :=
  ⟨by decide, by decide,
    (loopBody_threshold SampleMovie.getCol [comedyMovie, actionMovie]
      "title year where genre has Comedy and other words".toList (by decide)).1
      (by decide),
    (loopBody_threshold SampleMovie.getCol [comedyMovie, actionMovie]
      "title year where genre has Comedy and other words!".toList (by decide)).2
      (by decide) (by decide)⟩

end SessionClaims


/-! ## `process`: the header loop and the decode loop -/

theorem takeWhile_line (l rest : Str) (h : '\n' ∉ l) :
    (l ++ '\n' :: rest).takeWhile (fun c => c != '\n') = l := by
  induction l with
  | nil => simp [List.takeWhile]
  | cons c t ih =>
    have hc : c ≠ '\n' := fun e => h (e ▸ List.mem_cons_self _ _)
    have ht : '\n' ∉ t := fun e => h (List.mem_cons_of_mem _ e)
    have hb : (c != '\n') = true := by simpa using hc
    rw [List.cons_append, List.takeWhile_cons, hb, ih ht]
    rfl

theorem dropWhile_line (l rest : Str) (h : '\n' ∉ l) :
    (l ++ '\n' :: rest).dropWhile (fun c => c != '\n') = '\n' :: rest := by
  induction l with
  | nil => simp [List.dropWhile]
  | cons c t ih =>
    have hc : c ≠ '\n' := fun e => h (e ▸ List.mem_cons_self _ _)
    have ht : '\n' ∉ t := fun e => h (List.mem_cons_of_mem _ e)
    have hb : (c != '\n') = true := by simpa using hc
    rw [List.cons_append, List.dropWhile_cons, hb]
    exact ih ht

/-- On a stream that starts with a complete line, `getline` stores the line
and leaves what follows its `\n`. -/
theorem getline_line (l rest : Str) (h : '\n' ∉ l) :
    getline (some (l ++ '\n' :: rest)) = (some l, some rest) := by
  simp only [getline, dropWhile_line l rest h, takeWhile_line l rest h]

theorem length_lines_le (lines : List Str) :
    lines.length ≤ ((lines.map (fun l => l ++ ['\n'])).flatten).length := by
  induction lines with
  | nil => simp
  | cons l t ih =>
    simp only [List.map_cons, List.flatten_cons, List.length_append, List.length_cons,
      List.length_nil]
    omega

/-- The header loop stops after the first blank line. -/
theorem skipHeaders_headers (blank rest : Str) (hblank : blank = [] ∨ blank = ['\r']) :
    ∀ (headers : List Str) (fuel : Nat), headers.length < fuel →
      (∀ h ∈ headers, h ≠ [] ∧ h ≠ ['\r'] ∧ '\n' ∉ h) →
      skipHeaders fuel
          (some ((headers.map (fun l => l ++ ['\n'])).flatten ++ blank ++ '\n' :: rest)) =
        some rest := by
  have hnl : '\n' ∉ blank := by
    rcases hblank with h | h <;> subst h <;> decide
  intro headers
  induction headers with
  | nil =>
    intro fuel hfuel _
    obtain ⟨k, rfl⟩ : ∃ k, fuel = k + 1 := ⟨fuel - 1, by omega⟩
    simp only [List.map_nil, List.flatten_nil, List.nil_append, skipHeaders,
      getline_line blank rest hnl]
    rw [if_pos hblank]
  | cons h t ih =>
    intro fuel hfuel hwf
    obtain ⟨k, rfl⟩ : ∃ k, fuel = k + 1 := ⟨fuel - 1, by omega⟩
    obtain ⟨h1, h2, h3⟩ := hwf h (List.mem_cons_self _ _)
    have hshape : (List.map (fun l => l ++ ['\n']) (h :: t)).flatten ++ blank ++ '\n' :: rest =
        h ++ '\n' :: ((t.map (fun l => l ++ ['\n'])).flatten ++ blank ++ '\n' :: rest) := by
      simp [List.append_assoc]
    rw [hshape]
    simp only [skipHeaders, getline_line h _ h3]
    rw [if_neg (by simp [h1, h2])]
    exact ih k (by simpa using hfuel) (fun x hx => hwf x (List.mem_cons_of_mem _ hx))

theorem skipHeaders_failed (fuel : Nat) : skipHeaders fuel none = none := by
  cases fuel <;> simp [skipHeaders, getline]

/-- One iteration more than the stream has unread characters is enough for the
header loop: more iterations give the same stream. -/
theorem skipHeaders_fuel :
    ∀ (fuel : Nat) (buf : Str), buf.length < fuel →
      skipHeaders (fuel + 1) (some buf) = skipHeaders fuel (some buf) := by
  intro fuel
  induction fuel with
  | zero => intro buf h; exact absurd h (Nat.not_lt_zero _)
  | succ k ih =>
    intro buf h
    cases hd : buf.dropWhile (fun c => c != '\n') with
    | nil =>
      by_cases hb : buf = []
      · simp [skipHeaders, getline, hd, hb]
      · simp only [skipHeaders, getline, hd, hb, if_false, skipHeaders_failed]
    | cons x rest =>
      have hlen : rest.length < k := by
        have hsuf : x :: rest <:+ buf := hd ▸ List.dropWhile_suffix _
        have := hsuf.length_le
        simp only [List.length_cons] at this
        omega
      have hrec := ih rest hlen
      rw [skipHeaders, skipHeaders]
      simp only [getline, hd]
      split
      · rfl
      · exact hrec

section ProcessLemmas

variable {Movie : Type}

/-- When `operator>>` reads one record per line, the decode loop returns the
records of the lines in their order. -/
theorem decodeLoop_lines (extract : Str → Option (Movie × Str)) (decode : Str → Movie)
    (hempty : extract [] = none) :
    ∀ (lines : List Str) (fuel : Nat), lines.length < fuel →
      (∀ l ∈ lines, ∀ rest, extract (l ++ '\n' :: rest) = some (decode l, rest)) →
      decodeLoop extract fuel (some ((lines.map (fun l => l ++ ['\n'])).flatten)) =
        some (lines.map decode) := by
  intro lines
  induction lines with
  | nil =>
    intro fuel hfuel _
    obtain ⟨k, rfl⟩ : ∃ k, fuel = k + 1 := ⟨fuel - 1, by omega⟩
    simp [decodeLoop, hempty]
  | cons l t ih =>
    intro fuel hfuel hx
    obtain ⟨k, rfl⟩ : ∃ k, fuel = k + 1 := ⟨fuel - 1, by omega⟩
    have hshape : (List.map (fun l => l ++ ['\n']) (l :: t)).flatten =
        l ++ '\n' :: (t.map (fun l => l ++ ['\n'])).flatten := by
      simp [List.append_assoc]
    rw [hshape]
    simp only [decodeLoop, hx l (List.mem_cons_self _ _)]
    rw [ih k (by simpa using hfuel) (fun x hm => hx x (List.mem_cons_of_mem _ hm))]
    rfl

/-- When `operator>>` takes at least one character for every record it
stores, the decode loop ends within its iterations and returns a dataset. -/
theorem decodeLoop_returns (extract : Str → Option (Movie × Str))
    (hprogress : ∀ buf m rest, extract buf = some (m, rest) → rest.length < buf.length) :
    ∀ (fuel : Nat) (buf : Str), buf.length < fuel →
      ∃ movieDB, decodeLoop extract fuel (some buf) = some movieDB := by
  intro fuel
  induction fuel with
  | zero => intro buf h; exact absurd h (Nat.not_lt_zero _)
  | succ k ih =>
    intro buf h
    cases he : extract buf with
    | none => exact ⟨[], by simp [decodeLoop, he]⟩
    | some r =>
      obtain ⟨m, rest⟩ := r
      obtain ⟨db, hdb⟩ := ih rest (by have := hprogress buf m rest he; omega)
      exact ⟨m :: db, by simp [decodeLoop, he, hdb]⟩

end ProcessLemmas


theorem getline_whitespace (is : IStream)
    (h : ∀ buf, is = some buf → ∀ c ∈ buf, isspace c = true) :
    ∀ buf, (getline is).2 = some buf → ∀ c ∈ buf, isspace c = true := by
  intro buf hbuf c hc
  cases is with
  | none => simp [getline] at hbuf
  | some b =>
    cases hd : b.dropWhile (fun c => c != '\n') with
    | nil =>
      simp only [getline, hd] at hbuf
      split at hbuf <;> simp at hbuf
    | cons x rest =>
      simp only [getline, hd, Option.some.injEq] at hbuf
      rw [← hbuf] at hc
      have hsuf : x :: rest <:+ b := hd ▸ List.dropWhile_suffix _
      exact h b rfl c (hsuf.subset (List.mem_cons_of_mem _ hc))

theorem skipHeaders_whitespace :
    ∀ (fuel : Nat) (is : IStream),
      (∀ buf, is = some buf → ∀ c ∈ buf, isspace c = true) →
      ∀ buf, skipHeaders fuel is = some buf → ∀ c ∈ buf, isspace c = true := by
  intro fuel
  induction fuel with
  | zero =>
    intro is h buf hbuf
    exact h buf hbuf
  | succ k ih =>
    intro is h buf hbuf
    have hnext := getline_whitespace is h
    cases hg : getline is with
    | mk line is' =>
      rw [hg] at hnext
      cases line with
      | none =>
        simp only [skipHeaders, hg] at hbuf
        exact hnext buf hbuf
      | some l =>
        simp only [skipHeaders, hg] at hbuf
        split at hbuf
        · exact hnext buf hbuf
        · exact ih is' hnext buf hbuf

section ProcessClaims

variable {Movie : Type}

theorem decodeLoop_whitespace (extract : Str → Option (Movie × Str))
    (hfail : ∀ buf, (∀ c ∈ buf, isspace c = true) → extract buf = none)
    (fuel : Nat) (is : IStream)
    (h : ∀ buf, is = some buf → ∀ c ∈ buf, isspace c = true) :
    decodeLoop extract (fuel + 1) is = some [] := by
  cases is with
  | none => simp [decodeLoop]
  | some b => simp [decodeLoop, hfail b (h b rfl)]

/-- C11: on a response made of header lines (none empty or equal to `\r`), a
blank line, one column-header line and a body, `process` returns what the
decode loop reads from the body alone: no header line and not the
column-header row reaches `operator>>`.  When `operator>>` reads one record
per line, the records are those of the body lines in source order, a repeated
line giving a repeated record. -/
theorem process_decodes_body_only (extract : Str → Option (Movie × Str))
    (headers : List Str) (blank columnHeader body host path : Str)
    (hheaders : ∀ h ∈ headers, h ≠ [] ∧ h ≠ ['\r'] ∧ '\n' ∉ h)
    (hblank : blank = [] ∨ blank = ['\r'])
    (hcolumn : '\n' ∉ columnHeader) :
    process extract
        (some ((headers.map (fun l => l ++ ['\n'])).flatten ++ blank ++
          '\n' :: (columnHeader ++ '\n' :: body))) [host, path] =
      (decodeLoop extract (body.length + 1) (some body)).map
        (fun movieDB => (requestText host path, movieDB)) ∧
    ∀ (decode : Str → Movie) (lines : List Str),
      body = (lines.map (fun l => l ++ ['\n'])).flatten →
      (∀ l ∈ lines, ∀ rest, extract (l ++ '\n' :: rest) = some (decode l, rest)) →
      extract [] = none →
      process extract
          (some ((headers.map (fun l => l ++ ['\n'])).flatten ++ blank ++
            '\n' :: (columnHeader ++ '\n' :: body))) [host, path] =
        some (requestText host path, lines.map decode) := by
  have hskip := skipHeaders_headers blank (columnHeader ++ '\n' :: body) hblank headers
    (((headers.map (fun l => l ++ ['\n'])).flatten ++ blank ++
      '\n' :: (columnHeader ++ '\n' :: body)).length + 1)
    (by
      have := length_lines_le headers
      simp only [List.length_append]
      omega)
    hheaders
  have hproc : process extract
        (some ((headers.map (fun l => l ++ ['\n'])).flatten ++ blank ++
          '\n' :: (columnHeader ++ '\n' :: body))) [host, path] =
      (decodeLoop extract (body.length + 1) (some body)).map
        (fun movieDB => (requestText host path, movieDB)) := by
    simp only [process, List.getElem?_cons_zero, List.getElem?_cons_succ, Option.getD_some,
      hskip, getline_line columnHeader body hcolumn]
    cases decodeLoop extract (body.length + 1) (some body) <;> rfl
  refine ⟨hproc, ?_⟩
  intro decode lines hbody hlines hempty
  rw [hproc, hbody, decodeLoop_lines extract decode hempty lines _
    (by have := length_lines_le lines; omega) hlines]
  rfl

/-- C12: on an empty response stream `process` returns the empty dataset and
throws nothing, whatever `operator>>` is; and when `operator>>` fails on input
that holds whitespace only, it also returns the empty dataset on every response
made of whitespace characters only, such as a run of blank lines. -/
theorem process_empty_or_blank (extract : Str → Option (Movie × Str))
    (host path response : Str) (hblank : ∀ c ∈ response, isspace c = true) :
    process extract (some []) [host, path] = some (requestText host path, []) ∧
    ((∀ buf, (∀ c ∈ buf, isspace c = true) → extract buf = none) →
      process extract (some response) [host, path] =
        some (requestText host path, [])) := by
  constructor
  · simp [process, skipHeaders, getline, decodeLoop]
  · intro hfail
    have h1 := skipHeaders_whitespace (response.length + 1) (some response)
      (fun buf hb => by
        simp only [Option.some.injEq] at hb
        subst hb
        exact hblank)
    have h2 := getline_whitespace _ h1
    simp only [process, List.getElem?_cons_zero, List.getElem?_cons_succ, Option.getD_some,
      decodeLoop_whitespace extract hfail _ _ h2]

end ProcessClaims


theorem extractWords_whitespace (s : Str) (h : ∀ c ∈ s, isspace c = true) :
    extractWords s [] = [] := by
  induction s with
  | nil => rfl
  | cons c rest ih =>
    have hc : isspace c = true := h c (List.mem_cons_self _ _)
    simp [extractWords, hc, ih (fun x hx => h x (List.mem_cons_of_mem _ hx))]

theorem split_whitespace (s : Str) (h : ∀ c ∈ s, isspace c = true) : split s = [] := by
  unfold split
  apply extractWords_whitespace
  intro c hc
  unfold replace at hc
  simp only [List.map_map, List.mem_map, Function.comp] at hc
  obtain ⟨x, hx, rfl⟩ := hc
  have hxs := h x hx
  by_cases h1 : x = ','
  · subst h1
    exact absurd hxs (by decide)
  · by_cases h2 : x = '"'
    · subst h2
      exact absurd hxs (by decide)
    · simp [h1, h2, hxs]

theorem sampleExtract_whitespace (buf : Str) (h : ∀ c ∈ buf, isspace c = true) :
    sampleExtract buf = none := by
  have hs : split (buf.takeWhile (fun c => c != '\n')) = [] :=
    split_whitespace _ (fun c hc => h c ((List.takeWhile_prefix _).subset hc))
  simp [sampleExtract, hs]

/-- Witness of C11: a response with two header lines, the blank line, the
column-header row and three body lines, one of them repeated. -/
theorem process_decodes_body_only_witness :
    process sampleExtract
        (some ((["HTTP/1.1 200 OK\r".toList, "Server: x\r".toList].map
            (fun l => l ++ ['\n'])).flatten ++ "\r".toList ++
          '\n' :: ("title year genre".toList ++
            '\n' :: "Clue 1985 Comedy\nHeat 1995 Action\nClue 1985 Comedy\n".toList)))
        ["host.org".toList, "/data/movies.txt".toList] =
      some (requestText "host.org".toList "/data/movies.txt".toList,
        [comedyMovie, actionMovie, comedyMovie]) :=
  (process_decodes_body_only sampleExtract
    ["HTTP/1.1 200 OK\r".toList, "Server: x\r".toList] "\r".toList
    "title year genre".toList
    "Clue 1985 Comedy\nHeat 1995 Action\nClue 1985 Comedy\n".toList
    "host.org".toList "/data/movies.txt".toList
    (by decide) (by decide) (by decide)).1.trans (by decide)

/-- Witness of C12: the empty stream and a response of three blank lines, read
with the sample record reader. -/
theorem process_empty_or_blank_witness :
    process sampleExtract (some []) ["host.org".toList, "/data/movies.txt".toList] =
      some (requestText "host.org".toList "/data/movies.txt".toList, []) ∧
    process sampleExtract (some "\r\n\n\r\n".toList)
        ["host.org".toList, "/data/movies.txt".toList] =
      some (requestText "host.org".toList "/data/movies.txt".toList, []) :=
  have h := process_empty_or_blank sampleExtract "host.org".toList
    "/data/movies.txt".toList "\r\n\n\r\n".toList (by decide)
  ⟨h.1, h.2 sampleExtract_whitespace⟩

/-! ## Follow-up claims on `parseCategories`, the printers and `getHostAndPath` -/

section PrinterClaims

variable {Movie : Type}

/-- C14: for a token list of any length `printMoviesByCol` reads no `cols[i]`
outside the vector (the embedding gives no result for such a read, and here
there always is one).  Below four tokens it runs `moviesNoWhere`, whose loop
stays below `cols.size()`; from four tokens on the bounds `cols.size() - 4`,
`- 3`, `- 1` do not wrap, so `moviesWhere` and its projection loop read
existing tokens only.  Called directly on three tokens, `moviesWhere` does read
past the end: the guard in `printMoviesByCol` is what excludes it. -/
theorem printMoviesByCol_reads_in_range (getCol : Movie → Str → Str)
    (movieDB : List Movie) (cols : List Str) :
    (∃ lines, printMoviesByCol getCol movieDB cols = some lines) ∧
    (∃ lines, moviesNoWhere getCol movieDB cols = some lines) ∧
    (∀ m, ∃ output, projectLoop getCol m cols cols.length 0 [] = some output) ∧
    (cols.length < 4 →
      printMoviesByCol getCol movieDB cols = moviesNoWhere getCol movieDB cols) ∧
    (4 ≤ cols.length →
      subSizeT cols.length 4 = cols.length - 4 ∧
      subSizeT cols.length 3 = cols.length - 3 ∧
      subSizeT cols.length 1 = cols.length - 1 ∧
      (∃ lines, moviesWhere getCol movieDB cols = some lines) ∧
      ∀ m, ∃ output,
        projectLoop getCol m cols (subSizeT cols.length 4) 0 [] = some output) ∧
    moviesWhere SampleMovie.getCol [comedyMovie]
      ["title".toList, "x".toList, "Clue".toList] = none := by
  refine ⟨printMoviesByCol_returns getCol movieDB cols,
    ⟨_, moviesNoWhere_eq getCol cols movieDB⟩,
    fun m => ⟨_, projectLoop_joined getCol m cols _ 0 [] (by omega)⟩, ?_, ?_, by decide⟩
  · intro hshort
    exact printMoviesByCol_noWhere getCol movieDB cols (fun h => by omega)
  · intro h4
    have h1 : cols.length - 1 < cols.length := by omega
    have h3 : cols.length - 3 < cols.length := by omega
    refine ⟨subSizeT_of_le _ _ h4, subSizeT_of_le _ _ (by omega),
      subSizeT_of_le _ _ (by omega),
      ⟨_, moviesWhere_eq getCol movieDB cols _ _ h4 (List.getElem?_eq_getElem h1)
        (List.getElem?_eq_getElem h3)⟩, fun m => ?_⟩
    rw [subSizeT_of_le _ _ h4]
    exact ⟨_, projectLoop_spaced getCol m cols _ 0 [] (by omega)⟩

/-- C15: for a record and a token list of at least four tokens, the line that
the projection loop of `moviesWhere` builds (every value followed by a space,
then trimmed) is the line that the loop of `moviesNoWhere` builds on the tokens
before position `size - 4` (no separator after the last value, then trimmed);
so on a record that matches the filter the two functions print the same line. -/
theorem whereLine_eq_noWhereLine (getCol : Movie → Str → Str) (m : Movie)
    (cols : List Str) (h4 : 4 ≤ cols.length) :
    (∃ line,
      (projectLoop getCol m cols (subSizeT cols.length 4) 0 []).map trim = some line ∧
      (projectLoop getCol m (cols.take (cols.length - 4))
        (cols.take (cols.length - 4)).length 0 []).map trim = some line) ∧
    ∀ desiredTrait desiredTraitName,
      cols[cols.length - 1]? = some desiredTrait →
      cols[cols.length - 3]? = some desiredTraitName →
      desiredTrait <:+: getCol m desiredTraitName →
      moviesWhere getCol [m] cols =
        moviesNoWhere getCol [m] (cols.take (cols.length - 4)) := by
  constructor
  · refine ⟨formatLine getCol (cols.take (cols.length - 4)) m,
      whereLine_eq getCol m cols h4, ?_⟩
    rw [projectLoop_joined getCol m _ _ 0 [] (by omega)]
    rfl
  · intro desiredTrait desiredTraitName htrait hname hmatch
    rw [moviesWhere_eq getCol [m] cols desiredTrait desiredTraitName h4 htrait hname,
      moviesNoWhere_eq]
    simp [hmatch]

/-- Witness of C15 on the sample record of genre `Comedy`. -/
theorem whereLine_eq_noWhereLine_witness :
    moviesWhere SampleMovie.getCol [comedyMovie]
        (split "title year where genre has Comedy".toList) =
      moviesNoWhere SampleMovie.getCol [comedyMovie]
        ["title".toList, "year".toList] :=
  (whereLine_eq_noWhereLine SampleMovie.getCol comedyMovie
    (split "title year where genre has Comedy".toList) (by decide)).2
    "Comedy".toList "genre".toList (by decide) (by decide) (by decide)

end PrinterClaims

/-- C16, as the code has it: on a line
`pre ++ "http://" ++ X ++ "/" ++ Y ++ ".txt" ++ post` of
fewer than `2 ^ 31` characters, with `X` free of `/` and the shown markers the
first `http://` and the first `.txt` of the line, `getHostAndPath` returns the
host `X` and the path `"/" ++ Y ++ ".txt"`: the path keeps the extension and
has nothing of `post`, and host followed by path is the URL without its
scheme. -/
theorem getHostAndPath_url_without_scheme (line pre X Y post : Str)
    (hline : line = pre ++ "http://".toList ++ X ++ "/".toList ++ Y ++ ".txt".toList ++ post)
    (hlen : line.length < 2 ^ 31) (hX : '/' ∉ X)
    (hstart : ∀ j, j < pre.length → ¬ "http://".toList <+: line.drop j)
    (hend : ∀ j, j < pre.length + 7 + X.length + 1 + Y.length →
      ¬ ".txt".toList <+: line.drop j) :
    ∃ host path,
      getHostAndPath line = some [host, path] ∧ host = X ∧
        path = "/".toList ++ Y ++ ".txt".toList ∧
        line = pre ++ "http://".toList ++ (host ++ path) ++ post :=
  ⟨X, "/".toList ++ Y ++ ".txt".toList,
    getHostAndPath_span line pre X Y post hline hlen hX hstart hend, rfl, rfl,
    by rw [hline]; simp only [List.append_assoc]⟩

/-- Witness of C16 on a line with text before and after the URL. -/
theorem getHostAndPath_url_without_scheme_witness :
    ∃ host path,
      getHostAndPath "year \"http://example.com/films.txt\" where year has 19".toList =
        some [host, path] ∧ host = "example.com".toList ∧
        path = "/".toList ++ "films".toList ++ ".txt".toList ∧
        "year \"http://example.com/films.txt\" where year has 19".toList =
          "year \"".toList ++ "http://".toList ++ (host ++ path) ++
            "\" where year has 19".toList :=
  getHostAndPath_url_without_scheme
    "year \"http://example.com/films.txt\" where year has 19".toList
    "year \"".toList "example.com".toList "films".toList "\" where year has 19".toList
    (by decide) (by decide) (by decide) (by decide) (by decide)


/-! ## `split` and the maximal runs of non-separators -/

/-- The extraction loop on a string whose separators were turned into
whitespace by `f` gives the non-empty pieces between the separators, the first
piece being continued from the pending word. -/
theorem extractWords_map_eq_runs (f : Char → Char) (q : Char → Bool)
    (hsp : ∀ c, isspace (f c) = q c) (hid : ∀ c, q c = false → f c = c) :
    ∀ (s word : Str),
      extractWords (s.map f) word =
        ((s.splitOnP q).modifyHead (fun run => word ++ run)).filter
          (fun run => run ≠ []) := by
  intro s
  induction s with
  | nil =>
    intro word
    by_cases hw : word = []
    · simp [extractWords, hw]
    · simp [extractWords, hw]
  | cons c rest ih =>
    intro word
    obtain ⟨r, R, hR⟩ : ∃ r R, rest.splitOnP q = r :: R := by
      cases h : rest.splitOnP q with
      | nil => exact absurd h (List.splitOnP_ne_nil q rest)
      | cons r R => exact ⟨r, R, rfl⟩
    by_cases hq : q c = true
    · have hspace : isspace (f c) = true := by rw [hsp, hq]
      have ih0 := ih []
      rw [hR] at ih0
      simp only [List.modifyHead_cons, List.nil_append] at ih0
      rw [List.splitOnP_cons, if_pos hq, hR]
      simp only [List.map_cons, extractWords, hspace, if_true, List.modifyHead_cons,
        List.append_nil]
      rw [ih0]
      by_cases hw : word = []
      · simp [hw]
      · simp [hw]
    · have hq' : q c = false := by simpa using hq
      have hspace : isspace (f c) = false := by rw [hsp, hq']
      have hspace' : isspace c = false := (hid c hq') ▸ hspace
      have ih1 := ih (word ++ [c])
      rw [hR] at ih1
      simp only [List.modifyHead_cons] at ih1
      rw [List.splitOnP_cons, if_neg hq, hR]
      simp only [List.map_cons, extractWords, hspace', hid c hq', List.modifyHead_cons]
      rw [if_neg (by simp), ih1]
      simp [List.append_assoc]

theorem flatten_filter_ne_nil (L : List Str) :
    (L.filter (fun run => run ≠ [])).flatten = L.flatten := by
  induction L with
  | nil => rfl
  | cons r R ih =>
    by_cases hr : r = []
    · simpa [hr] using ih
    · simpa [hr] using ih

theorem flatten_splitOnP (q : Char → Bool) (s : Str) :
    (s.splitOnP q).flatten = s.filter (fun c => !q c) := by
  induction s with
  | nil => simp
  | cons c rest ih =>
    obtain ⟨r, R, hR⟩ : ∃ r R, rest.splitOnP q = r :: R := by
      cases h : rest.splitOnP q with
      | nil => exact absurd h (List.splitOnP_ne_nil q rest)
      | cons r R => exact ⟨r, R, rfl⟩
    rw [hR] at ih
    by_cases hq : q c = true
    · rw [List.splitOnP_cons, if_pos hq, hR]
      simp [hq, ← ih]
    · have hq' : q c = false := by simpa using hq
      rw [List.splitOnP_cons, if_neg hq, hR]
      simp [hq', ← ih]

theorem split_eq_maximalRuns (s : Str) : split s = maximalRuns s := by
  have hmap : replace (replace s ',' ' ') '"' ' ' =
      s.map (fun c => if (if c = ',' then ' ' else c) = '"' then ' '
        else (if c = ',' then ' ' else c)) := by
    simp [replace, List.map_map, Function.comp]
  have h := extractWords_map_eq_runs
    (fun c => if (if c = ',' then ' ' else c) = '"' then ' '
      else (if c = ',' then ' ' else c)) isSeparator
    (fun c => by
      by_cases h1 : c = ','
      · subst h1; decide
      · by_cases h2 : c = '"'
        · subst h2; decide
        · simp [isSeparator, h1, h2])
    (fun c hc => by
      have h1 : c ≠ ',' := by
        intro e; subst e; exact absurd hc (by decide)
      have h2 : c ≠ '"' := by
        intro e; subst e; exact absurd hc (by decide)
      simp [h1, h2])
    s []
  unfold split maximalRuns
  rw [hmap, h]
  congr 1
  cases s.splitOnP isSeparator <;> simp

/-- C17: the tokens of `split s`, concatenated in order, are `s` with every
comma, double quote and whitespace character deleted, so no other character is
lost, added or moved; and the tokens are the maximal runs of non-separator
characters of `s`. -/
theorem split_concat_and_runs (s : Str) :
    (split s).flatten = s.filter (fun c => !isSeparator c) ∧
      split s = maximalRuns s ∧
      split " a,b \"c  d\",".toList = ["a".toList, "b".toList, "c".toList, "d".toList] := by
  refine ⟨?_, split_eq_maximalRuns s, by decide⟩
  rw [split_eq_maximalRuns, maximalRuns, flatten_filter_ne_nil, flatten_splitOnP]


/-! ## Lines with a marker beyond position `2 ^ 31` -/

theorem toInt32_of_ge (n : Nat) (h1 : 2 ^ 31 ≤ n) (h2 : n < 2 ^ 32) :
    toInt32 (n : Int) = (n : Int) - 2 ^ 32 := by
  unfold toInt32
  simp only
  split <;> omega

theorem find_some_first (s pat : Str) (k : Nat) (h : find s pat = some k) :
    ∀ j, j < k → ¬ pat <+: s.drop j := by
  obtain ⟨k', hr, _, _, hfirst⟩ := findFrom_some_spec pat s 0 k h
  have : k = k' := by omega
  subst this
  exact hfirst

theorem drop_replicate_append_lt (c : Char) (tail : Str) :
    ∀ (n j : Nat), j < n →
      ∃ rest, (List.replicate n c ++ tail).drop j = c :: rest := by
  intro n
  induction n with
  | zero => intro j h; exact absurd h (Nat.not_lt_zero _)
  | succ n ih =>
    intro j h
    cases j with
    | zero => exact ⟨List.replicate n c ++ tail, rfl⟩
    | succ j =>
      obtain ⟨rest, hrest⟩ := ih j (by omega)
      exact ⟨rest, by rw [List.replicate_succ, List.cons_append, List.drop_succ_cons, hrest]⟩

theorem drop_replicate_append_ge (c : Char) (tail : Str) (n k : Nat) :
    (List.replicate n c ++ tail).drop (n + k) = tail.drop k := by
  have h := @List.drop_append _ (List.replicate n c) tail k
  rw [List.length_replicate] at h
  exact h

/-- The first occurrence of a pattern that does not start with `c`, in a string
that starts with `n` characters `c`, is `n` positions after its first
occurrence in what follows them. -/
theorem find_after_replicate (c p : Char) (ps tail : Str) (n k : Nat) (hpc : p ≠ c)
    (hk : find tail (p :: ps) = some k) :
    find (List.replicate n c ++ tail) (p :: ps) = some (n + k) := by
  obtain ⟨hle, hpre⟩ := find_some_le tail _ k hk
  have hfirst := find_some_first tail _ k hk
  apply find_eq_some_of_first
  · rw [drop_replicate_append_ge]
    exact hpre
  · rw [List.length_append, List.length_replicate]
    omega
  · intro j hj hpat
    by_cases hjn : j < n
    · obtain ⟨rest, hrest⟩ := drop_replicate_append_lt c tail n j hjn
      rw [hrest] at hpat
      obtain ⟨t, ht⟩ := hpat
      simp only [List.cons_append, List.cons.injEq] at ht
      exact hpc ht.1
    · obtain ⟨d, rfl⟩ : ∃ d, j = n + d := ⟨j - n, by omega⟩
      rw [drop_replicate_append_ge] at hpat
      exact hfirst d (by omega) hpat

/-- With the first `.txt` at a position from `2 ^ 31` on, the `int` that holds
it is negative, the resume position converted back to `size_t` lies beyond the
line, and `substr` throws. -/
theorem parseCategories_none_of_far_txt (line : Str) (e : Nat)
    (hf : find line ".txt".toList = some e) (h1 : 2 ^ 31 ≤ e)
    (h2 : line.length < 2 ^ 32) : parseCategories line = none := by
  obtain ⟨_, hpre⟩ := find_some_le line _ e hf
  have h4 : e + 4 ≤ line.length := by
    have := hpre.length_le
    simp only [List.length_drop] at this
    have h4' : ".txt".toList.length = 4 := by decide
    omega
  have hz : toInt32 (toInt32 (posValue (some e)) + 4) = (e : Int) + 4 - 2 ^ 32 := by
    rw [posValue_some, toInt32_of_ge e h1 (by omega)]
    rw [toInt32_of_range _ (by omega) (by omega)]
    ring
  have hpos : line.length < toSizeT (toInt32 (toInt32 (posValue (some e)) + 4)) := by
    rw [hz]
    unfold toSizeT
    omega
  have hthrow : substr line (toSizeT (toInt32 (toInt32 (posValue (some e)) + 4))) npos =
      none := by
    unfold substr
    rw [if_pos hpos]
  unfold parseCategories
  simp only [hf, hthrow]
  rw [substr_eq _ _ _ (Nat.zero_le _)]

/-- With the first `http://` at a position from `2 ^ 31` on, the start of the
extraction converted back to `size_t` lies beyond the line, and `substr`
throws. -/
theorem getHostAndPath_none_of_far_http (line : Str) (h : Nat)
    (hf : find line "http://".toList = some h) (h1 : 2 ^ 31 ≤ h)
    (h2 : line.length < 2 ^ 32) : getHostAndPath line = none := by
  obtain ⟨_, hpre⟩ := find_some_le line _ h hf
  have h7 : h + 7 ≤ line.length := by
    have := hpre.length_le
    simp only [List.length_drop] at this
    have h7' : "http://".toList.length = 7 := by decide
    omega
  have hz : toInt32 (toInt32 (posValue (some h)) + 7) = (h : Int) + 7 - 2 ^ 32 := by
    rw [posValue_some, toInt32_of_ge h h1 (by omega)]
    rw [toInt32_of_range _ (by omega) (by omega)]
    ring
  have hpos : line.length < toSizeT (toInt32 (toInt32 (posValue (some h)) + 7)) := by
    rw [hz]
    unfold toSizeT
    omega
  unfold getHostAndPath
  simp only [hf]
  generalize toSizeT (toInt32 (toInt32 (toInt32 (posValue (find line ".txt".toList)) -
    toInt32 (posValue (some h))) - 3)) = count
  have hthrow : substr line (toSizeT (toInt32 (toInt32 (posValue (some h)) + 7))) count =
      none := by
    unfold substr
    rw [if_pos hpos]
  simp only [hthrow]


theorem find_after_replicate_of_eq (c p : Char) (ps tail pat : Str) (n k : Nat)
    (hpat : pat = p :: ps) (hpc : p ≠ c) (hk : find tail pat = some k) :
    find (List.replicate n c ++ tail) pat = some (n + k) := by
  subst hpat
  exact find_after_replicate c p ps tail n k hpc hk

theorem longPrefix_length : longPrefix.length = 2 ^ 31 := by
  unfold longPrefix
  exact List.length_replicate _ _

theorem longLine_shape :
    longLine = List.replicate (2 ^ 31) 'a' ++ "\"http://h/p.txt title".toList := by
  unfold longLine longPrefix
  simp only [List.append_assoc]
  exact congrArg (fun t => List.replicate (2 ^ 31) 'a' ++ t) (by decide)

theorem longLine_length : longLine.length = 2 ^ 31 + 21 := by
  have h : "\"http://h/p.txt title".toList.length = 21 := by decide
  rw [longLine_shape, List.length_append, List.length_replicate, h]

theorem find_longLine_quote : find longLine "\"http".toList = some (2 ^ 31 + 0) := by
  rw [longLine_shape]
  exact find_after_replicate_of_eq 'a' '"' "http".toList _ _ (2 ^ 31) 0 (by decide)
    (by decide) (by decide)

theorem find_longLine_http : find longLine "http://".toList = some (2 ^ 31 + 1) := by
  rw [longLine_shape]
  exact find_after_replicate_of_eq 'a' 'h' "ttp://".toList _ _ (2 ^ 31) 1 (by decide)
    (by decide) (by decide)

theorem find_longLine_txt : find longLine ".txt".toList = some (2 ^ 31 + 11) := by
  rw [longLine_shape]
  exact find_after_replicate_of_eq 'a' '.' "txt".toList _ _ (2 ^ 31) 11 (by decide)
    (by decide) (by decide)

theorem parseCategories_longLine : parseCategories longLine = none :=
  parseCategories_none_of_far_txt longLine (2 ^ 31 + 11) find_longLine_txt (by omega)
    (by rw [longLine_length]; omega)

section LongLineLoop

variable {Movie : Type}

theorem loopBody_none_of_throw (getCol : Movie → Str → Str) (movieDB : List Movie)
    (line : Str) (hexit : line ≠ "exit".toList) (hlong : 50 ≤ line.length)
    (hthrow : parseCategories line = none) : loopBody getCol movieDB line = none := by
  unfold loopBody
  simp only [if_neg hexit, if_neg (Nat.not_lt.mpr hlong), hthrow]

end LongLineLoop

/-- C5 fails as stated: `longLine` is `pre ++ "\"http" ++ mid ++ ".txt" ++ post`
with `pre` a run of `2 ^ 31` characters `a`, and the shown markers are the first
occurrences; the position of `.txt` does not fit an `int`, and
`parseCategories` throws instead of returning `split (pre ++ " " ++ post)`. -/
theorem parseCategories_throws_on_long_line :
    (∀ j, j < longPrefix.length → ¬ "\"http".toList <+: longLine.drop j) ∧
    (∀ j, j < longPrefix.length + 5 + "://h/p".toList.length →
      ¬ ".txt".toList <+: longLine.drop j) ∧
    parseCategories longLine = none ∧
    parseCategories longLine ≠
      some (split (longPrefix ++ " ".toList ++ " title".toList)) := by
  have hmid : "://h/p".toList.length = 6 := by decide
  refine ⟨fun j hj => ?_, fun j hj => ?_, parseCategories_longLine, ?_⟩
  · rw [longPrefix_length] at hj
    exact find_some_first longLine _ _ find_longLine_quote j (by omega)
  · rw [longPrefix_length, hmid] at hj
    exact find_some_first longLine _ _ find_longLine_txt j (by omega)
  · rw [parseCategories_longLine]
    exact fun h => Option.noConfusion h

/-- C10 fails as stated: `longLine` is not `exit` and has more than 50
characters, yet the pass through the loop body ends in the exception thrown by
`parseCategories`; nothing is evaluated. -/
theorem loopBody_aborts_on_long_line :
    longLine ≠ "exit".toList ∧ 50 ≤ longLine.length ∧
      loopBody SampleMovie.getCol [comedyMovie, actionMovie] longLine = none := by
  have hexit : longLine ≠ "exit".toList := by
    intro h
    have hl := congrArg List.length h
    have h4 : "exit".toList.length = 4 := by decide
    rw [longLine_length, h4] at hl
    omega
  have hlong : 50 ≤ longLine.length := by
    rw [longLine_length]
    omega
  exact ⟨hexit, hlong, loopBody_none_of_throw _ _ _ hexit hlong parseCategories_longLine⟩

/-- C16 fails as stated: `longLine` is `pre ++ "http://" ++ X ++ "/" ++ Y ++
".txt" ++ post` with `X = "h"`, `Y = "p"` and `pre` of `2 ^ 31 + 1` characters,
the shown markers being the first occurrences; the position of `http://` does
not fit an `int`, and `getHostAndPath` throws instead of returning `h` and
`/p.txt`. -/
theorem getHostAndPath_throws_on_long_line :
    longLine = longPrefix ++ "\"".toList ++ "http://".toList ++ "h".toList ++
      "/".toList ++ "p".toList ++ ".txt".toList ++ " title".toList ∧
    '/' ∉ "h".toList ∧
    (∀ j, j < (longPrefix ++ "\"".toList).length →
      ¬ "http://".toList <+: longLine.drop j) ∧
    (∀ j, j < (longPrefix ++ "\"".toList).length + 7 + "h".toList.length + 1 +
        "p".toList.length → ¬ ".txt".toList <+: longLine.drop j) ∧
    getHostAndPath longLine = none := by
  have hpre : (longPrefix ++ "\"".toList).length = 2 ^ 31 + 1 := by
    have h1 : "\"".toList.length = 1 := by decide
    rw [List.length_append, longPrefix_length, h1]
  have hX : "h".toList.length = 1 := by decide
  have hY : "p".toList.length = 1 := by decide
  refine ⟨?_, by decide, fun j hj => ?_, fun j hj => ?_, ?_⟩
  · unfold longLine
    simp only [List.append_assoc]
    exact congrArg (fun t => longPrefix ++ t) (by decide)
  · rw [hpre] at hj
    exact find_some_first longLine _ _ find_longLine_http j hj
  · rw [hpre, hX, hY] at hj
    exact find_some_first longLine _ _ find_longLine_txt j (by omega)
  · exact getHostAndPath_none_of_far_http longLine (2 ^ 31 + 1) find_longLine_http
      (by omega) (by rw [longLine_length]; omega)

end MovieClient
